import Mathlib

/-!
Verification of the documentation-harvesting pipeline (link discovery,
content-addressed fetching, markdown conversion, header indexing).

JavaScript strings are modelled as lists of characters (`Str`), JavaScript
numbers that can be `NaN` as `JSNum`, the filesystem as association lists
from path to content (with modification times where they matter), and the
rendering/extraction technology (puppeteer, Readability, Turndown) as
abstract function parameters, following the spec's scope note that these
are consumed capabilities.  All definitions are translated from the
scripts under `scripts/` (`01-extract-links.js`, `02-download-html.js`,
`03-convert-markdown.js`, `04-generate-index-headers-only.js`).
-/

namespace DocsPipeline

/-- JavaScript strings, modelled as lists of (UTF-16-ish) characters. -/
abbrev Str := List Char

/-- Whitespace in the sense of the JavaScript regex class `\s` (ASCII part). -/
def isWsChar (c : Char) : Bool :=
  c = ' ' || c = '\t' || c = '\n' || c = '\r' || c = Char.ofNat 11 || c = Char.ofNat 12

/-- Model of `String.prototype.toLowerCase` (ASCII letters). -/
def jsToLower (s : Str) : Str := s.map Char.toLower

/-- Model of `String.prototype.trim`. -/
def jsTrim (s : Str) : Str :=
  ((s.dropWhile isWsChar).reverse.dropWhile isWsChar).reverse

/-- Model of `hay.includes(needle)` for JavaScript strings. -/
def jsIncludes (hay needle : Str) : Bool :=
  match hay with
  | [] => needle.isEmpty
  | _ :: cs => needle.isPrefixOf hay || jsIncludes cs needle

/-- Split a list at the first occurrence of a character, returning the
segments before and after it (helper for modelling regex scans). -/
def splitAtChar (c : Char) : Str → Option (Str × Str)
  | [] => none
  | x :: xs =>
    if x = c then some ([], xs)
    else
      match splitAtChar c xs with
      | some (a, b) => some (x :: a, b)
      | none => none

theorem splitAtChar_length {c : Char} : ∀ {l a b : Str},
    splitAtChar c l = some (a, b) → a.length + b.length + 1 = l.length := by
  intro l
  induction l with
  | nil => intro a b h; simp [splitAtChar] at h
  | cons x xs ih =>
    intro a b h
    by_cases hx : x = c
    · simp [splitAtChar, hx] at h
      simp [← h.1, ← h.2]
    · simp only [splitAtChar, if_neg hx] at h
      cases hsp : splitAtChar c xs with
      | none => rw [hsp] at h; simp at h
      | some p =>
        rw [hsp] at h
        simp at h
        cases p with
        | mk a' b' =>
          have := ih (a := a') (b := b') hsp
          simp at h
          rw [← h.1, ← h.2]
          simp [← this]
          omega

/-- A JavaScript number that is either an actual (natural) number or `NaN`,
as produced by `getSectionPriority` (`1000 + text.charCodeAt(0)` is `NaN`
when the text is empty). -/
inductive JSNum where
  | nan : JSNum
  | num (n : ℕ) : JSNum
deriving DecidableEq

/-- A discovered page reference (`{ href, title, text, fullUrl }`). -/
structure Link where
  href : Str
  title : Str
  text : Str
  fullUrl : Str
deriving DecidableEq

/-- A chapter assignment (`{ number, name }`). -/
structure Chapter where
  number : ℕ
  name : Str
deriving DecidableEq

/-- The two pipeline modes of the unified scripts. -/
inductive Mode where
  | reference : Mode
  | learn : Mode
deriving DecidableEq

/-- A mode configuration: the chapter mapping table and the section priority
keyword table, plus the mode tag merged in by `main`
(`{ ...MODE_CONFIGS[mode], mode }`).  Both tables are association lists in
object insertion order, matching `Object.entries` iteration. -/
structure Config where
  mode : Mode
  chapterMapping : List (Str × Chapter)
  sectionPriority : List (Str × ℕ)
deriving DecidableEq

/-- Exact JavaScript object property lookup (`config.chapterMapping[key]`). -/
def alistGet {α : Type} (k : Str) : List (Str × α) → Option α
  | [] => none
  | (k', v) :: rest => if k' = k then some v else alistGet k rest

/-- Model of `getChapterInfo(href, config)` from `02-download-html.js`
(lines 117-145): reference mode keys on the first two non-empty path
segments; learn mode does an exact lookup, then the first entry in table
order whose key is a prefix of the href, then the sentinel chapter. -/
def getChapterInfo (href : Str) (config : Config) : Option Chapter :=
  match config.mode with
  | .reference =>
    let pathParts := (List.splitOn '/' href).filter (fun p => !p.isEmpty)
    match pathParts with
    | p0 :: p1 :: _ =>
      let chapterPath := '/' :: p0 ++ '/' :: p1
      match alistGet chapterPath config.chapterMapping with
      | some chapter => some chapter
      | none => some ⟨99, "Other".toList⟩
    | _ => none
  | .learn =>
    match alistGet href config.chapterMapping with
    | some exactMatch => some exactMatch
    | none =>
      match config.chapterMapping.find? (fun kc => kc.1.isPrefixOf href) with
      | some kc => some kc.2
      | none => some ⟨99, "Other".toList⟩

/-- The keyword test of the loop body in `getSectionPriority`:
`lowerText.includes(keyword) || lowerHref.includes(keyword)`. -/
def keywordMatches (text href : Str) (kp : Str × ℕ) : Bool :=
  jsIncludes (jsToLower text) kp.1 || jsIncludes (jsToLower href) kp.1

/-- The priorities of all keywords matching a section's text or href, in
table order (analysis helper for the "lowest-matching keyword" wording of
the spec). -/
def matchingPriorities (config : Config) (text href : Str) : List ℕ :=
  (config.sectionPriority.filter (keywordMatches text href)).map (fun kp => kp.2)

/-- Model of `getSectionPriority(text, href, config)` (lines 147-158): the
priority of the first matching keyword in table order, otherwise
`1000 + lowerText.charCodeAt(0)` — which is `NaN` for empty text. -/
def getSectionPriority (text href : Str) (config : Config) : JSNum :=
  match config.sectionPriority.find? (keywordMatches text href) with
  | some kp => .num kp.2
  | none =>
    match jsToLower text with
    | [] => .nan
    | c :: _ => .num (1000 + c.toNat)

/-- Run-compression worker: the flag records whether the previous character
belonged to a run being replaced. -/
def collapseRunsAux (p : Char → Bool) (rep : Char) : Str → Bool → Str
  | [], _ => []
  | c :: cs, inRun =>
    if p c then
      if inRun then collapseRunsAux p rep cs true
      else rep :: collapseRunsAux p rep cs true
    else c :: collapseRunsAux p rep cs false

/-- Replace every maximal run of characters satisfying `p` by the single
character `rep` (models the global regex replaces in `cleanTitle`). -/
def collapseRuns (p : Char → Bool) (rep : Char) (s : Str) : Str :=
  collapseRunsAux p rep s false

/-- Strip a leading and a trailing run of hyphens (regex `^-+|-+$`). -/
def trimHyphens (s : Str) : Str :=
  ((s.dropWhile (· = '-')).reverse.dropWhile (· = '-')).reverse

/-- True when a character survives the `cleanTitle` character filter
(regex class `[a-zA-Z0-9\s-]`). -/
def keepTitleChar (c : Char) : Bool :=
  c.isAlpha || c.isDigit || isWsChar c || c = '-'

/-- Model of `cleanTitle(text)` (lines 160-167): drop disallowed characters,
turn whitespace runs into hyphens, collapse hyphen runs, trim hyphens,
lowercase. -/
def cleanTitle (text : Str) : Str :=
  jsToLower (trimHyphens (collapseRuns (· = '-') '-'
    (collapseRuns isWsChar '-' (text.filter keepTitleChar))))

/-- A section: a page reference annotated with its priority
(`{ ...link, priority }` pushed by `organizeLinks`). -/
structure Section where
  href : Str
  title : Str
  text : Str
  fullUrl : Str
  priority : JSNum
deriving DecidableEq

/-- The section built from a link inside `organizeLinks`. -/
def mkSection (config : Config) (l : Link) : Section :=
  ⟨l.href, l.title, l.text, l.fullUrl, getSectionPriority l.text l.href config⟩

/-- A chapter bucket of the catalog (`{ info, sections }`). -/
structure Bucket where
  info : Chapter
  sections : List Section
deriving DecidableEq

/-- The catalog built by `organizeLinks`: chapter number to bucket. -/
abbrev Catalog := List (ℕ × Bucket)

/-- Lookup of `organizedLinks[chapterNum]`. -/
def catGet (n : ℕ) : Catalog → Option Bucket
  | [] => none
  | (m, b) :: rest => if m = n then some b else catGet n rest

/-- Append a section to the bucket for chapter `n`, creating the bucket with
`info` on first use (the `if (!chapters[chapterNum])` / `push` logic). -/
def catInsert (n : ℕ) (info : Chapter) (s : Section) : Catalog → Catalog
  | [] => [(n, ⟨info, [s]⟩)]
  | (m, b) :: rest =>
    if m = n then (m, ⟨b.info, b.sections ++ [s]⟩) :: rest
    else (m, b) :: catInsert n info s rest

/-- Model of `text.localeCompare(other)`: lexicographic comparison by
character code, returning a sign. -/
def lexCmp : Str → Str → Int
  | [], [] => 0
  | [], _ :: _ => -1
  | _ :: _, [] => 1
  | a :: as, b :: bs =>
    if a.toNat < b.toNat then -1
    else if b.toNat < a.toNat then 1
    else lexCmp as bs

/-- Strict inequality test `===`/`!==` between the two priorities as
JavaScript numbers: `NaN` is unequal to everything, including itself. -/
def jsNumNeq : JSNum → JSNum → Bool
  | .num x, .num y => x ≠ y
  | _, _ => true

/-- The sort comparator of `organizeLinks` (lines 191-196):
`a.priority - b.priority` when the priorities differ (`NaN`, modelled as
`none`, when either priority is `NaN`), otherwise
`a.text.localeCompare(b.text)`. -/
def sectionComparator (a b : Section) : Option Int :=
  if jsNumNeq a.priority b.priority then
    match a.priority, b.priority with
    | .num x, .num y => some ((x : Int) - (y : Int))
    | _, _ => none
  else some (lexCmp a.text b.text)

/-- Section `a` sorts strictly before section `b`: the comparator result is
an actual number below zero (a `NaN` comparator result leaves the engine
treating the pair as equal). -/
def sectionLt (a b : Section) : Bool :=
  match sectionComparator a b with
  | some v => decide (v < 0)
  | none => false

/-- Stable insertion of a section into an already-sorted list, modelling the
engine's stable `Array.prototype.sort`. -/
def jsInsert (x : Section) : List Section → List Section
  | [] => [x]
  | y :: ys => if sectionLt x y then x :: y :: ys else y :: jsInsert x ys

/-- Stable sort of a chapter's sections by the `organizeLinks` comparator. -/
def jsSortSections (l : List Section) : List Section :=
  l.foldl (fun acc x => jsInsert x acc) []

/-- One `links.forEach` step of `organizeLinks`: classify the link, skip it
when `getChapterInfo` returns null, otherwise push its section. -/
def addLink (config : Config) (cat : Catalog) (l : Link) : Catalog :=
  match getChapterInfo l.href config with
  | none => cat
  | some chapterInfo => catInsert chapterInfo.number chapterInfo (mkSection config l) cat

/-- Model of `organizeLinks(links, config)` (lines 169-200): group links by
chapter, then sort each chapter's sections with the priority/text
comparator. -/
def organizeLinks (links : List Link) (config : Config) : Catalog :=
  (links.foldl (addLink config) []).map (fun nb => (nb.1, ⟨nb.2.info, jsSortSections nb.2.sections⟩))

/-- Decimal digit character. -/
def digitChar (d : ℕ) : Char := Char.ofNat (48 + d)

/-- Decimal representation worker with explicit recursion depth; the depth
`n + 1` used by `natStr` always suffices. -/
def natStrCore : ℕ → ℕ → Str → Str
  | 0, _, acc => acc
  | fuel + 1, n, acc =>
    if n < 10 then digitChar n :: acc
    else natStrCore fuel (n / 10) (digitChar (n % 10) :: acc)

/-- Decimal representation of a natural number (model of `String(n)`). -/
def natStr (n : ℕ) : Str := natStrCore (n + 1) n []

/-- Decimal value of a digit string from a given accumulator (analysis
helper used to invert `natStr`). -/
def digitsValFrom (a : ℕ) (s : Str) : ℕ :=
  s.foldl (fun acc c => 10 * acc + (c.toNat - 48)) a

/-- Model of `String(n).padStart(2, '0')`. -/
def pad2 (n : ℕ) : Str :=
  let s := natStr n
  if s.length < 2 then '0' :: s else s

/-- Model of `generateChapterSectionFilename(link, organizedLinks, config)`
(lines 202-226): `"{chapter:02}-{sectionIndex+1:02}-{cleanTitle(text)}"`,
falling back to `cleanTitle(text)` when the chapter, bucket, or section
index cannot be resolved. -/
def generateChapterSectionFilename (link : Link) (organizedLinks : Catalog)
    (config : Config) : Str :=
  match getChapterInfo link.href config with
  | none => cleanTitle link.text
  | some chapterInfo =>
    match catGet chapterInfo.number organizedLinks with
    | none => cleanTitle link.text
    | some chapter =>
      match chapter.sections.findIdx? (fun s => s.href = link.href) with
      | none => cleanTitle link.text
      | some sectionIndex =>
        pad2 chapterInfo.number ++ '-' :: pad2 (sectionIndex + 1) ++ '-' :: cleanTitle link.text

/-- The `MODE_CONFIGS.reference` table of `02-download-html.js`. -/
def referenceConfig : Config :=
  ⟨.reference,
   [("/reference/react".toList, ⟨1, "React Core".toList⟩),
    ("/reference/react-dom".toList, ⟨2, "React DOM".toList⟩),
    ("/reference/react-compiler".toList, ⟨3, "React Compiler".toList⟩),
    ("/reference/rsc".toList, ⟨4, "React Server Components".toList⟩),
    ("/reference/rules".toList, ⟨5, "Rules of React".toList⟩)],
   [("overview".toList, 1), ("hooks".toList, 2), ("components".toList, 3),
    ("apis".toList, 4), ("client".toList, 5), ("server".toList, 6)]⟩

/-- The `MODE_CONFIGS.learn` table of `02-download-html.js`. -/
def learnConfig : Config :=
  ⟨.learn,
   [("/learn".toList, ⟨1, "Get Started".toList⟩),
    ("/learn/tutorial-tic-tac-toe".toList, ⟨1, "Get Started".toList⟩),
    ("/learn/thinking-in-react".toList, ⟨1, "Get Started".toList⟩),
    ("/learn/installation".toList, ⟨1, "Get Started".toList⟩),
    ("/learn/setup".toList, ⟨1, "Get Started".toList⟩),
    ("/learn/react-compiler".toList, ⟨1, "Get Started".toList⟩),
    ("/learn/describing-the-ui".toList, ⟨2, "Learn React".toList⟩),
    ("/learn/adding-interactivity".toList, ⟨2, "Learn React".toList⟩),
    ("/learn/managing-state".toList, ⟨2, "Learn React".toList⟩),
    ("/learn/escape-hatches".toList, ⟨2, "Learn React".toList⟩)],
   [("quick-start".toList, 1), ("tutorial".toList, 2), ("thinking".toList, 3),
    ("installation".toList, 4), ("setup".toList, 5), ("compiler".toList, 6),
    ("describing".toList, 7), ("adding".toList, 8), ("managing".toList, 9),
    ("escape".toList, 10)]⟩

/-- Second definition, following the spec's words for comparison with the
source's `getChapterInfo`: "derived from a page reference's path via a
configurable mapping table (longest-prefix match; unmatched references fall
into a sentinel Other chapter with the highest number)". -/
def getChapterInfoSpecLongestPrefix (href : Str) (mapping : List (Str × Chapter)) : Chapter :=
  match mapping.filter (fun kc => kc.1.isPrefixOf href) with
  | [] => ⟨99, "Other".toList⟩
  | m :: rest =>
    (rest.foldl (fun best kc => if best.1.length < kc.1.length then kc else best) m).2

/-- Model of `path.join(dir, name)`. -/
def pathJoin (dir name : Str) : Str := dir ++ '/' :: name

/-- An association-list file store: path to stored content. -/
abbrev Store := List (Str × Str)

/-- Update-or-add a binding in an association list. -/
def alistSet {α : Type} (k : Str) (v : α) : List (Str × α) → List (Str × α)
  | [] => [(k, v)]
  | (k', v') :: rest => if k' = k then (k, v) :: rest else (k', v') :: alistSet k v rest

/-- The per-page record returned by `downloadSinglePage`
(`{ filename, filepath, url, title, size, skipped }`). -/
structure FetchResult where
  filename : Str
  filepath : Str
  url : Str
  title : Str
  size : ℕ
  skipped : Bool
deriving DecidableEq

/-- Model of `HTMLDownloader.checkExistingFile(filepath, newContent)`
(lines 322-335): read the stored file and compare SHA-256 digests; any read
failure (missing file) yields `false`.  The digest function is an abstract
parameter `hash`; the code only ever compares digests for equality. -/
def checkExistingFile (hash : Str → ℕ) (store : Store) (filepath newContent : Str) : Bool :=
  match alistGet filepath store with
  | some existingContent => hash existingContent = hash newContent
  | none => false

/-- Model of `HTMLDownloader.downloadSinglePage` (lines 337-390) after the
page has been fetched: `htmlContent` is the rendered markup obtained from
the worker (navigation/rendering is the abstracted capability).  Content
shorter than 1000 characters throws, is caught, and yields `null`; identical
stored content yields a `skipped` record without rewriting; otherwise the
content is persisted and a non-skipped record returned. -/
def downloadSinglePage (hash : Str → ℕ) (htmlDir : Str) (organizedLinks : Catalog)
    (config : Config) (store : Store) (link : Link) (htmlContent : Str) :
    Option FetchResult × Store :=
  let filename := generateChapterSectionFilename link organizedLinks config
  let filepath := pathJoin htmlDir (filename ++ ".html".toList)
  if htmlContent.length < 1000 then (none, store)
  else if checkExistingFile hash store filepath htmlContent then
    (some ⟨filename ++ ".html".toList, filepath, link.fullUrl, link.text,
           htmlContent.length, true⟩, store)
  else
    (some ⟨filename ++ ".html".toList, filepath, link.fullUrl, link.text,
           htmlContent.length, false⟩, alistSet filepath htmlContent store)

/-- A settled promise, as produced by `Promise.allSettled`. -/
inductive SettledResult (α : Type) where
  | fulfilled (value : α) : SettledResult α
  | rejected : SettledResult α
deriving DecidableEq

/-- The result aggregation of `HTMLDownloader.processBatch` (lines 392-417):
from the settled task results, the fulfilled non-null records in order, and
the count of rejected-or-null tasks. -/
def processBatchSettled (results : List (SettledResult (Option FetchResult))) :
    List FetchResult × ℕ :=
  (results.filterMap (fun r =>
     match r with
     | .fulfilled (some v) => some v
     | _ => none),
   results.countP (fun r =>
     match r with
     | .fulfilled none => true
     | .rejected => true
     | _ => false))

/-- The batch loop of `downloadAllPages` (lines 435-445): successful records
of each batch are appended in batch order; failures never abort later
batches. -/
def downloadAllSuccessful (batches : List (List (SettledResult (Option FetchResult)))) :
    List FetchResult :=
  (batches.map (fun b => (processBatchSettled b).1)).flatten

/-- A raw sidebar anchor as seen by the Cheerio pass of
`parseSidebarLinks`: the `href` attribute, the `title` attribute (already
defaulted to the empty string), and the untrimmed link text. -/
structure RawAnchor where
  href : Str
  title : Str
  text : Str
deriving DecidableEq

/-- Model of `parseSidebarLinks` (`01-extract-links.js`, lines 113-128):
keep anchors whose `href` and trimmed text are non-empty, resolving
root-relative hrefs against the site origin. -/
def parseSidebarLinks (anchors : List RawAnchor) : List Link :=
  anchors.filterMap (fun a =>
    let textContent := jsTrim a.text
    if a.href ≠ [] ∧ textContent ≠ [] then
      some ⟨a.href, a.title, textContent,
            if a.href.head? = some '/' then "https://react.dev".toList ++ a.href
            else a.href⟩
    else none)

/-- The backtick character (code 96). -/
def btChar : Char := Char.ofNat 96

/-- Model of the global replace of `\[([^\]]+)\]\([^)]+\)` by the link text
(markdown link removal in `extractHeadersFromMarkdown`).  At each `[` the
regex engine takes the non-empty run up to the first `]`, requires `(`, a
non-empty run up to the first `)`, and substitutes the bracketed text; on
failure it advances one position. -/
def stripLinksCore : ℕ → Str → Str
  | 0, s => s
  | _ + 1, [] => []
  | fuel + 1, c :: cs =>
    if c = '[' then
      match splitAtChar ']' cs with
      | some (inner, rest2) =>
        if inner.isEmpty then c :: stripLinksCore fuel cs
        else
          match rest2 with
          | '(' :: rest3 =>
            match splitAtChar ')' rest3 with
            | some (url, rest4) =>
              if url.isEmpty then c :: stripLinksCore fuel cs
              else inner ++ stripLinksCore fuel rest4
            | none => c :: stripLinksCore fuel cs
          | _ => c :: stripLinksCore fuel cs
      | none => c :: stripLinksCore fuel cs
    else c :: stripLinksCore fuel cs

/-- Model of a global replace of the paired single-delimiter pattern
`d([^d]+)d` by the inner text (used for backtick code spans and `*italic*`). -/
def stripDelimCore (d : Char) : ℕ → Str → Str
  | 0, s => s
  | _ + 1, [] => []
  | fuel + 1, c :: cs =>
    if c = d then
      match splitAtChar d cs with
      | some (inner, rest2) =>
        if inner.isEmpty then c :: stripDelimCore d fuel cs
        else inner ++ stripDelimCore d fuel rest2
      | none => c :: stripDelimCore d fuel cs
    else c :: stripDelimCore d fuel cs

/-- Model of a global replace of the paired double-delimiter pattern
`dd([^d]+)dd` by the inner text (used for `**bold**` and `~~strike~~`). -/
def stripDoubleDelimCore (d : Char) : ℕ → Str → Str
  | 0, s => s
  | _ + 1, [] => []
  | _ + 1, [c] => [c]
  | fuel + 1, c :: c' :: cs =>
    if c = d ∧ c' = d then
      match splitAtChar d cs with
      | some (inner, rest2) =>
        if inner.isEmpty then c :: stripDoubleDelimCore d fuel (c' :: cs)
        else
          match rest2 with
          | e :: rest3 =>
            if e = d then inner ++ stripDoubleDelimCore d fuel rest3
            else c :: stripDoubleDelimCore d fuel (c' :: cs)
          | [] => c :: stripDoubleDelimCore d fuel (c' :: cs)
      | none => c :: stripDoubleDelimCore d fuel (c' :: cs)
    else c :: stripDoubleDelimCore d fuel (c' :: cs)

/-- Markdown link removal: every recursion step of the worker consumes at
least one character, so recursion depth equal to the length suffices. -/
def stripLinks (s : Str) : Str := stripLinksCore s.length s

/-- Single-delimiter span removal at full recursion depth. -/
def stripDelim (d : Char) (s : Str) : Str := stripDelimCore d s.length s

/-- Double-delimiter span removal at full recursion depth. -/
def stripDoubleDelim (d : Char) (s : Str) : Str := stripDoubleDelimCore d s.length s

/-- The formatting-removal pipeline applied to a header text in
`extractHeadersFromMarkdown` (`04-generate-index-headers-only.js`,
lines 102-107): links, code spans, bold, italic, strikethrough. -/
def stripFormatting (text : Str) : Str :=
  stripDoubleDelim '~' (stripDelim '*' (stripDoubleDelim '*' (stripDelim btChar (stripLinks text))))

/-- One extracted header entry (`{ level, text }`). -/
structure Header where
  level : ℕ
  text : Str
deriving DecidableEq

/-- The `FILTER_OUT_WORDS` denylist of meta-labels. -/
def FILTER_OUT_WORDS : List Str :=
  ["note".toList, "pitfall".toList, "deep dive".toList,
   "experimental feature".toList, "deprecated".toList,
   "under construction".toList, "warning".toList, "caution".toList,
   "tip".toList, "info".toList]

/-- Model of `PureHeadersIndexGenerator.isValidHeader(text)`
(`04-generate-index-headers-only.js`, lines 69-84): reject texts equal to a
denylisted meta-label (after lowercasing and trimming) and texts shorter
than 3 characters. -/
def isValidHeader (text : Str) : Bool :=
  let lowerText := jsTrim (jsToLower text)
  if FILTER_OUT_WORDS.any (fun word => word = lowerText) then false
  else if lowerText.length < 3 then false
  else true

/-- Model of the per-line regex `^(#{1,6})\s+(.+)$` applied to a trimmed
line: one to six leading hashes, mandatory whitespace, a non-empty
remainder.  Returns the header level and the trimmed remainder. -/
def parseHeaderLine (line : Str) : Option (ℕ × Str) :=
  let trimmed := jsTrim line
  let hashes := trimmed.takeWhile (· = '#')
  let rest := trimmed.dropWhile (· = '#')
  if 1 ≤ hashes.length ∧ hashes.length ≤ 6 then
    match rest with
    | c :: _ =>
      if isWsChar c then
        let text := jsTrim (rest.dropWhile isWsChar)
        if text.isEmpty then none else some (hashes.length, text)
      else none
    | [] => none
  else none

/-- Model of `PureHeadersIndexGenerator.extractHeadersFromMarkdown`
(lines 86-121), applied to the already-read file content: split into lines,
parse header lines, strip markdown formatting from the header text, keep
the valid headers in source order. -/
def extractHeadersFromMarkdown (content : Str) : List Header :=
  (List.splitOn '\n' content).filterMap (fun line =>
    match parseHeaderLine line with
    | some lt =>
      let text := stripFormatting lt.2
      if isValidHeader text then some ⟨lt.1, text⟩ else none
    | none => none)

/-- Replace the first occurrence of `pat` in a string (model of the
JavaScript `s.replace(pat, rep)` with a plain-string pattern, used as
`htmlFilename.replace('.html', '')`). -/
def replaceFirst (pat rep : Str) : Str → Str
  | [] => if pat.isEmpty then rep else []
  | c :: cs =>
    if pat.isPrefixOf (c :: cs) then rep ++ (c :: cs).drop pat.length
    else c :: replaceFirst pat rep cs

/-- Whitespace-split worker with explicit recursion depth. -/
def jsSplitWsCore : ℕ → Str → Str → List Str
  | 0, s, cur => [cur.reverse ++ s]
  | _ + 1, [], cur => [cur.reverse]
  | fuel + 1, c :: cs, cur =>
    if isWsChar c then cur.reverse :: jsSplitWsCore fuel (cs.dropWhile isWsChar) []
    else jsSplitWsCore fuel cs (c :: cur)

/-- Split on runs of whitespace, model of `content.split(/\s+/)` (leading or
trailing whitespace contributes empty segments, as in JavaScript). -/
def jsSplitWs (s : Str) : List Str := jsSplitWsCore (s.length + 1) s []

/-- Word count of a markdown string: `s.split(/\s+/).length`. -/
def wordCountOf (s : Str) : ℕ := (jsSplitWs s).length

/-- A file store entry carrying content and modification time. -/
structure FileEntry where
  content : Str
  mtime : ℕ
deriving DecidableEq

/-- The filesystem state seen by the converter: the raw `html` directory and
the converted `markdown` directory, each path to entry. -/
structure ConvState where
  html : List (Str × FileEntry)
  md : List (Str × FileEntry)
deriving DecidableEq

/-- The readable-article result of the abstracted extraction capability
(Mozilla Readability plus Turndown): title, excerpt, content length, and
the converted markdown body.  `none` models `!article || !article.content`. -/
structure Extracted where
  title : Str
  excerpt : Str
  length : ℕ
  markdown : Str
deriving DecidableEq

/-- The per-file record returned by `convertSingleFile`. -/
structure ConvRecord where
  filename : Str
  title : Str
  excerpt : Str
  wordCount : ℕ
  url : Str
  path : Str
  skipped : Bool
deriving DecidableEq

/-- The fixed collaborators of one converter run: the abstract extraction
function, the loaded links, the organized catalog, the mode configuration
and the two directory roots. -/
structure ConvCtx where
  extract : Str → Option Extracted
  links : List Link
  org : Catalog
  config : Config
  htmlDir : Str
  mdDir : Str

/-- Model of `MarkdownConverter.shouldSkipConversion(htmlPath, markdownPath)`
(`03-convert-markdown.js`, lines 347-364): stat both files (any failure
means no skip); reconvert when the raw document is newer than the converted
one, otherwise skip. -/
def shouldSkipConversion (st : ConvState) (htmlPath markdownPath : Str) : Bool :=
  match alistGet markdownPath st.md, alistGet htmlPath st.html with
  | some markdownStats, some htmlStats => !(markdownStats.mtime < htmlStats.mtime)
  | _, _ => false

/-- Model of `createMarkdownDocument(article, link, markdown)`
(lines 449-472): frontmatter plus source banner plus body plus footer; the
ISO timestamp is modelled by the decimal rendering of `now`. -/
def createMarkdownDocument (article : Extracted) (link : Link) (markdown : Str)
    (now : ℕ) : Str :=
  let timestamp := natStr now
  let title := if article.title.isEmpty then link.text else article.title
  "---\ntitle: \"".toList ++ title ++ "\"\nurl: ".toList ++ link.fullUrl ++
  "\npath: ".toList ++ link.href ++ "\nexcerpt: \"".toList ++ article.excerpt ++
  "\"\nlength: ".toList ++ natStr article.length ++ "\nscraped: ".toList ++ timestamp ++
  "\n---\n\n# ".toList ++ title ++ "\n\n> Source: ".toList ++ link.fullUrl ++
  "\n> Path: ".toList ++ link.href ++ "\n\n".toList ++ markdown ++
  "\n\n---\nConverted on ".toList ++ timestamp ++ "\n".toList

/-- The conversion tail of `convertSingleFile` after the skip check fell
through: read the raw document, extract the readable article, convert, and
persist the markdown document with the current time as modification time. -/
def convertCore (ctx : ConvCtx) (now : ℕ) (st : ConvState) (link : Link)
    (baseFilename htmlPath markdownPath : Str) : Option ConvRecord × ConvState :=
  match alistGet htmlPath st.html with
  | none => (none, st)
  | some htmlEntry =>
    match ctx.extract htmlEntry.content with
    | none => (none, st)
    | some article =>
      let markdown := article.markdown
      let markdownWithMeta := createMarkdownDocument article link markdown now
      (some ⟨baseFilename ++ ".md".toList,
             if article.title.isEmpty then link.text else article.title,
             article.excerpt, wordCountOf markdown, link.fullUrl, link.href, false⟩,
       ⟨st.html, alistSet markdownPath ⟨markdownWithMeta, now⟩ st.md⟩)

/-- Model of `MarkdownConverter.convertSingleFile(htmlFilename, ...)`
(lines 366-447): find the link whose generated filename matches, check the
skip condition, and either return a lightweight record from the existing
converted file or run the conversion; a read failure of the existing
converted file falls through to conversion. -/
def convertSingleFile (ctx : ConvCtx) (now : ℕ) (st : ConvState)
    (htmlFilename : Str) : Option ConvRecord × ConvState :=
  let htmlPath := pathJoin ctx.htmlDir htmlFilename
  let baseFilename := replaceFirst ".html".toList [] htmlFilename
  match ctx.links.find? (fun l =>
      generateChapterSectionFilename l ctx.org ctx.config = baseFilename) with
  | none => (none, st)
  | some link =>
    let markdownPath := pathJoin ctx.mdDir (baseFilename ++ ".md".toList)
    if shouldSkipConversion st htmlPath markdownPath then
      match alistGet markdownPath st.md with
      | some existing =>
        (some ⟨baseFilename ++ ".md".toList, link.text, [],
               wordCountOf existing.content, link.fullUrl, link.href, true⟩, st)
      | none => convertCore ctx now st link baseFilename htmlPath markdownPath
    else convertCore ctx now st link baseFilename htmlPath markdownPath

/-- The state effect of one convert phase over a list of raw document
filenames (the batch loop of `convertAllPages`, which settles every batch;
file effects are per-item and are modelled in sequence). -/
def runConvert (ctx : ConvCtx) (now : ℕ) (st : ConvState) (files : List Str) : ConvState :=
  files.foldl (fun s f => (convertSingleFile ctx now s f).2) st

/-- The raw document path the converter reads for a given filename. -/
def htmlPathOf (ctx : ConvCtx) (f : Str) : Str := pathJoin ctx.htmlDir f

/-- The converted document path the converter writes for a given
filename. -/
def mdPathOf (ctx : ConvCtx) (f : Str) : Str :=
  pathJoin ctx.mdDir (replaceFirst ".html".toList [] f ++ ".md".toList)

/-- Analysis predicate: whenever the converter could actually convert a
file (its link is found, its raw document readable, extraction succeeds),
a converted document at least as new as the raw document already exists —
the configuration under which processing the file changes nothing. -/
def freshFor (ctx : ConvCtx) (st : ConvState) (f : Str) : Prop :=
  ∀ link, ctx.links.find? (fun l =>
      generateChapterSectionFilename l ctx.org ctx.config =
        replaceFirst ".html".toList [] f) = some link →
    ∀ h, alistGet (htmlPathOf ctx f) st.html = some h →
      (ctx.extract h.content).isSome = true →
      ∃ m, alistGet (mdPathOf ctx f) st.md = some m ∧ h.mtime ≤ m.mtime

/-- The configuration of the spec's naming-determinism scenario: chapter
mapping `/a ↦ {1, A}` and priority keywords `intro ↦ 1` (prefix matching on
chapter keys selects the learn branch of `getChapterInfo`). -/
def scenarioConfig : Config :=
  ⟨.learn, [("/a".toList, ⟨1, "A".toList⟩)], [("intro".toList, 1)]⟩

/-- The page reference with href `/a/intro` of the scenario. -/
def introLink : Link :=
  ⟨"/a/intro".toList, [], "Intro".toList, "https://x/a/intro".toList⟩

/-- The page reference with href `/a/zeta` of the scenario. -/
def zetaLink : Link :=
  ⟨"/a/zeta".toList, [], "Zeta".toList, "https://x/a/zeta".toList⟩

/-- The catalog the scenario builds. -/
def scenarioCatalog : Catalog := organizeLinks [introLink, zetaLink] scenarioConfig

/-- Two distinct page references sharing the href `/a/x` whose display
texts differ only in case. -/
def fooUpperLink : Link := ⟨"/a/x".toList, [], "Foo".toList, []⟩

/-- The lower-case twin of `fooUpperLink`. -/
def fooLowerLink : Link := ⟨"/a/x".toList, [], "foo".toList, []⟩

/-- The catalog built from the two colliding references. -/
def collisionCatalog : Catalog := organizeLinks [fooUpperLink, fooLowerLink] scenarioConfig

/-- A keyword-less section whose display text "z" has a high character
code. -/
def sectionHighText : Section := mkSection learnConfig ⟨[], [], "z".toList, []⟩

/-- A section with empty display text and no keyword match: its priority is
`NaN`. -/
def sectionEmptyText : Section := mkSection learnConfig ⟨[], [], [], []⟩

/-- A keyword-less section whose display text "a" has a low character
code. -/
def sectionLowText : Section := mkSection learnConfig ⟨[], [], "a".toList, []⟩

/-- A concrete fetch record used to instantiate batch theorems. -/
def witnessRecord (i : ℕ) : FetchResult := ⟨"f".toList, [], [], [], i, false⟩

/-- A concrete extraction capability that always succeeds, echoing the raw
content as markdown. -/
def extractW : Str → Option Extracted := fun s => some ⟨"T".toList, [], 1, s⟩

/-- A concrete converter context over the scenario catalog. -/
def ctxW : ConvCtx :=
  ⟨extractW, [introLink], scenarioCatalog, scenarioConfig, "html".toList, "md".toList⟩

/-- A concrete converter state: one raw document, no converted documents. -/
def stW : ConvState :=
  ⟨[(pathJoin "html".toList "01-01-intro.html".toList, ⟨"x".toList, 5⟩)], []⟩

/-- C3: at the href `/learn/describing-the-ui/x` under the shipped learn
mapping, `getChapterInfo` returns the first insertion-order prefix match
(key `/learn`, chapter 1 "Get Started"), while longest-prefix match — the
behaviour stated by the spec and by the code's own comment "find the most
specific match" — selects key `/learn/describing-the-ui`, chapter 2
"Learn React".  The code therefore does not implement longest-prefix
match. -/
theorem getChapterInfo_firstMatch_vs_longestPrefix :
    getChapterInfo "/learn/describing-the-ui/x".toList learnConfig =
      some ⟨1, "Get Started".toList⟩ ∧
    getChapterInfoSpecLongestPrefix "/learn/describing-the-ui/x".toList
      learnConfig.chapterMapping = ⟨2, "Learn React".toList⟩ ∧
    getChapterInfo "/learn/describing-the-ui/x".toList learnConfig ≠
      some (getChapterInfoSpecLongestPrefix "/learn/describing-the-ui/x".toList
        learnConfig.chapterMapping) := by
  refine ⟨by decide, by decide, by decide⟩

/-- C5: under chapter mapping `/a ↦ {1, A}` and priority keywords
`intro ↦ 1`, the references with hrefs `/a/intro` and `/a/zeta` are both
placed in chapter 1, and their generated filenames begin `01-01-` and
`01-02-` respectively, in that order. -/
theorem naming_determinism_instance :
    getChapterInfo introLink.href scenarioConfig = some ⟨1, "A".toList⟩ ∧
    getChapterInfo zetaLink.href scenarioConfig = some ⟨1, "A".toList⟩ ∧
    "01-01-".toList.isPrefixOf
      (generateChapterSectionFilename introLink scenarioCatalog scenarioConfig) = true ∧
    "01-02-".toList.isPrefixOf
      (generateChapterSectionFilename zetaLink scenarioCatalog scenarioConfig) = true := by
  refine ⟨by decide, by decide, by decide, by decide⟩

/-- C8: a document whose headers are exactly "Note", "ok", "Pitfall" and
"Usage" yields exactly the header list `["Usage"]`: denylisted meta-labels
("Note", "Pitfall") and headers shorter than three characters ("ok") are
excluded, the rest kept in source order. -/
theorem header_filtering_instance :
    (extractHeadersFromMarkdown
       "## Note\nsome body text\n## ok\n## Pitfall\nmore text\n## Usage".toList).map
        (fun h => h.text) = ["Usage".toList] ∧
    isValidHeader "Note".toList = false ∧
    isValidHeader "ok".toList = false ∧
    isValidHeader "Pitfall".toList = false ∧
    isValidHeader "Usage".toList = true := by
  refine ⟨by decide, by decide, by decide, by decide, by decide⟩

/-- C2 counterexample: the two distinct page references `fooUpperLink` and
`fooLowerLink` (same href `/a/x`, display texts "Foo" and "foo") are both
classified into the catalog, yet receive the identical filename
`01-01-foo` — `generateChapterSectionFilename` is not injective on distinct
page references of a fixed catalog. -/
theorem filename_not_injective_counterexample :
    fooUpperLink ≠ fooLowerLink ∧
    (catGet 1 collisionCatalog).map (fun b => b.sections.map (fun s => (s.href, s.text))) =
      some [(fooUpperLink.href, fooUpperLink.text), (fooLowerLink.href, fooLowerLink.text)] ∧
    generateChapterSectionFilename fooUpperLink collisionCatalog scenarioConfig =
      generateChapterSectionFilename fooLowerLink collisionCatalog scenarioConfig ∧
    generateChapterSectionFilename fooUpperLink collisionCatalog scenarioConfig =
      "01-01-foo".toList := by
  refine ⟨by decide, by decide, by decide, by decide⟩

/-- C4 counterexample: the reference-mode href `/foo` matches no entry of
the chapter mapping (no key is even a prefix of it), yet `getChapterInfo`
returns null instead of the sentinel Other chapter, and `organizeLinks`
drops the reference: the resulting catalog is empty. -/
theorem unmatched_href_dropped_counterexample :
    referenceConfig.chapterMapping.all (fun kc => !kc.1.isPrefixOf "/foo".toList) = true ∧
    getChapterInfo "/foo".toList referenceConfig = none ∧
    organizeLinks [⟨"/foo".toList, [], "Foo".toList, []⟩] referenceConfig = [] := by
  refine ⟨by decide, by decide, by decide⟩

theorem alistGet_alistSet_self {α : Type} (k : Str) (v : α) :
    ∀ l : List (Str × α), alistGet k (alistSet k v l) = some v := by
  intro l
  induction l with
  | nil => simp [alistSet, alistGet]
  | cons kv rest ih =>
    by_cases hk : kv.1 = k
    · simp [alistSet, hk, alistGet]
    · simp [alistSet, hk, alistGet, ih]

theorem checkExistingFile_true_iff (hash : Str → ℕ) (store : Store) (fp c : Str) :
    checkExistingFile hash store fp c = true ↔
      ∃ old, alistGet fp store = some old ∧ hash old = hash c := by
  unfold checkExistingFile
  cases h : alistGet fp store with
  | none => simp
  | some old => simp [h]

/-- C1: for every input page reference (with plausibly long fetched
content, so that a record is produced at all), the fetch step marks the
record `skipped = true` exactly when a stored raw document under the
derived filename exists whose content hash equals the hash of the freshly
fetched content; a skipped fetch leaves the store untouched, and a
non-skipped fetch persists the new content and marks `skipped = false`. -/
theorem downloadSinglePage_skip_iff_hash_eq (hash : Str → ℕ) (htmlDir : Str)
    (organizedLinks : Catalog) (config : Config) (store : Store) (link : Link)
    (htmlContent : Str) (hlen : 1000 ≤ htmlContent.length) :
    ∃ r : FetchResult,
      (downloadSinglePage hash htmlDir organizedLinks config store link htmlContent).1 = some r ∧
      (r.skipped = true ↔
        ∃ old, alistGet (pathJoin htmlDir
            (generateChapterSectionFilename link organizedLinks config ++ ".html".toList))
            store = some old ∧ hash old = hash htmlContent) ∧
      (r.skipped = true →
        (downloadSinglePage hash htmlDir organizedLinks config store link htmlContent).2 = store) ∧
      (r.skipped = false →
        (downloadSinglePage hash htmlDir organizedLinks config store link htmlContent).2 =
          alistSet (pathJoin htmlDir
            (generateChapterSectionFilename link organizedLinks config ++ ".html".toList))
            htmlContent store ∧
        alistGet (pathJoin htmlDir
            (generateChapterSectionFilename link organizedLinks config ++ ".html".toList))
          (downloadSinglePage hash htmlDir organizedLinks config store link htmlContent).2 =
          some htmlContent) := by
  have hno : ¬ htmlContent.length < 1000 := by omega
  have hunf : downloadSinglePage hash htmlDir organizedLinks config store link htmlContent =
      (if checkExistingFile hash store
            (pathJoin htmlDir
              (generateChapterSectionFilename link organizedLinks config ++ ".html".toList))
            htmlContent then
         (some ⟨generateChapterSectionFilename link organizedLinks config ++ ".html".toList,
                pathJoin htmlDir
                  (generateChapterSectionFilename link organizedLinks config ++ ".html".toList),
                link.fullUrl, link.text, htmlContent.length, true⟩, store)
       else
         (some ⟨generateChapterSectionFilename link organizedLinks config ++ ".html".toList,
                pathJoin htmlDir
                  (generateChapterSectionFilename link organizedLinks config ++ ".html".toList),
                link.fullUrl, link.text, htmlContent.length, false⟩,
          alistSet (pathJoin htmlDir
              (generateChapterSectionFilename link organizedLinks config ++ ".html".toList))
            htmlContent store)) := by
    simp [downloadSinglePage, hno]
  cases hchk : checkExistingFile hash store
      (pathJoin htmlDir
        (generateChapterSectionFilename link organizedLinks config ++ ".html".toList))
      htmlContent with
  | true =>
    rw [hunf, if_pos hchk]
    refine ⟨_, rfl, ?_, fun _ => rfl, fun hfalse => by simp at hfalse⟩
    simpa using (checkExistingFile_true_iff hash store _ htmlContent).mp hchk
  | false =>
    rw [hunf, if_neg (by rw [hchk]; simp)]
    refine ⟨_, rfl, ?_, fun htrue => by simp at htrue,
      fun _ => ⟨rfl, alistGet_alistSet_self _ _ _⟩⟩
    constructor
    · intro htrue
      simp at htrue
    · intro hex
      exfalso
      have hc := (checkExistingFile_true_iff hash store _ htmlContent).mpr hex
      rw [hchk] at hc
      exact Bool.false_ne_true hc

/-- Witness for the fetch dedup theorem at a concrete input: empty store,
length-based hash, a 1000-character content. -/
theorem downloadSinglePage_skip_iff_hash_eq_witness :
    1000 ≤ (List.replicate 1000 'a').length ∧
    ∃ r : FetchResult,
      (downloadSinglePage (fun s => s.length) "html".toList scenarioCatalog scenarioConfig
          [] introLink (List.replicate 1000 'a')).1 = some r ∧
      (r.skipped = true ↔
        ∃ old, alistGet (pathJoin "html".toList
            (generateChapterSectionFilename introLink scenarioCatalog scenarioConfig ++
              ".html".toList)) ([] : Store) = some old ∧
          List.length old = List.length (List.replicate 1000 'a')) ∧
      (r.skipped = true →
        (downloadSinglePage (fun s => s.length) "html".toList scenarioCatalog scenarioConfig
            [] introLink (List.replicate 1000 'a')).2 = ([] : Store)) ∧
      (r.skipped = false →
        (downloadSinglePage (fun s => s.length) "html".toList scenarioCatalog scenarioConfig
            [] introLink (List.replicate 1000 'a')).2 =
          alistSet (pathJoin "html".toList
            (generateChapterSectionFilename introLink scenarioCatalog scenarioConfig ++
              ".html".toList)) (List.replicate 1000 'a') [] ∧
        alistGet (pathJoin "html".toList
            (generateChapterSectionFilename introLink scenarioCatalog scenarioConfig ++
              ".html".toList))
          (downloadSinglePage (fun s => s.length) "html".toList scenarioCatalog scenarioConfig
            [] introLink (List.replicate 1000 'a')).2 = some (List.replicate 1000 'a')) :=
  ⟨by rw [List.length_replicate], downloadSinglePage_skip_iff_hash_eq (fun s => s.length)
    "html".toList scenarioCatalog scenarioConfig [] introLink (List.replicate 1000 'a')
    (by rw [List.length_replicate])⟩

/-- C7: per-item failure containment in a fetch batch.  Every fulfilled
non-null task record is kept; in a batch of five tasks whose third member
is rejected or null, the other four records are all returned in order and
the failure count is one; and a batch's outcome contributes independently
of every other batch in the run. -/
theorem processBatch_failure_containment :
    (∀ (rs : List (SettledResult (Option FetchResult))) (i : ℕ) (r : FetchResult),
       rs[i]? = some (.fulfilled (some r)) → r ∈ (processBatchSettled rs).1) ∧
    (∀ (r1 r2 r4 r5 : FetchResult) (t3 : SettledResult (Option FetchResult)),
       t3 = .rejected ∨ t3 = .fulfilled none →
       processBatchSettled [.fulfilled (some r1), .fulfilled (some r2), t3,
           .fulfilled (some r4), .fulfilled (some r5)] = ([r1, r2, r4, r5], 1)) ∧
    (∀ (pre post : List (List (SettledResult (Option FetchResult))))
       (batch : List (SettledResult (Option FetchResult))),
       downloadAllSuccessful (pre ++ batch :: post) =
         downloadAllSuccessful pre ++ (processBatchSettled batch).1 ++
           downloadAllSuccessful post) := by
  refine ⟨?_, ?_, ?_⟩
  · intro rs i r h
    have hmem : SettledResult.fulfilled (some r) ∈ rs := by
      exact List.getElem?_mem h
    simp only [processBatchSettled, List.mem_filterMap]
    exact ⟨_, hmem, rfl⟩
  · rintro r1 r2 r4 r5 t3 (rfl | rfl) <;>
      simp [processBatchSettled, List.countP_cons]
  · intro pre post batch
    simp [downloadAllSuccessful, List.flatten_append, List.append_assoc]

/-- Witness for batch failure containment: a concrete five-task batch with
a rejected third task. -/
theorem processBatch_failure_containment_witness :
    processBatchSettled [.fulfilled (some (witnessRecord 1)), .fulfilled (some (witnessRecord 2)),
        .rejected, .fulfilled (some (witnessRecord 4)), .fulfilled (some (witnessRecord 5))] =
      ([witnessRecord 1, witnessRecord 2, witnessRecord 4, witnessRecord 5], 1) :=
  processBatch_failure_containment.2.1 (witnessRecord 1) (witnessRecord 2) (witnessRecord 4)
    (witnessRecord 5) .rejected (Or.inl rfl)

/-- C10: `getSectionPriority` yields an actual number whenever the display
text is non-empty, but yields `NaN` on an empty, keyword-less text
(`1000 + ''.charCodeAt(0)`); with a `NaN` priority in play, the sort
comparator's induced "not strictly after" relation is not transitive, so
it is no longer a total order; the Link Discoverer's empty-text filter
establishes the non-empty-text precondition under which the ordering
guarantees hold. -/
theorem getSectionPriority_nan_on_empty_text :
    (∀ (text href : Str) (config : Config), text ≠ [] →
       ∃ n, getSectionPriority text href config = .num n) ∧
    getSectionPriority [] [] learnConfig = .nan ∧
    sectionEmptyText.priority = .nan ∧
    sectionLt sectionEmptyText sectionHighText = false ∧
    sectionLt sectionHighText sectionEmptyText = false ∧
    sectionLt sectionLowText sectionEmptyText = false ∧
    sectionLt sectionEmptyText sectionLowText = false ∧
    sectionLt sectionLowText sectionHighText = true ∧
    ¬ Transitive (fun a b : Section => sectionLt b a = false) ∧
    (∀ (anchors : List RawAnchor), ∀ l ∈ parseSidebarLinks anchors, l.text ≠ []) := by
  refine ⟨?_, by decide, by decide, by decide, by decide, by decide, by decide, by decide,
    ?_, ?_⟩
  · intro text href config htext
    unfold getSectionPriority
    cases hf : config.sectionPriority.find? (keywordMatches text href) with
    | some kp => exact ⟨kp.2, by simp⟩
    | none =>
      cases text with
      | nil => exact absurd rfl htext
      | cons c cs => exact ⟨1000 + (Char.toLower c).toNat, by simp [jsToLower]⟩
  · intro htr
    have h1 : sectionLt sectionEmptyText sectionHighText = false := by decide
    have h2 : sectionLt sectionLowText sectionEmptyText = false := by decide
    have h3 := htr h1 h2
    have h4 : sectionLt sectionLowText sectionHighText = true := by decide
    rw [h3] at h4
    exact Bool.false_ne_true h4
  · intro anchors l hl
    simp only [parseSidebarLinks, List.mem_filterMap] at hl
    obtain ⟨a, _, heq⟩ := hl
    by_cases hc : a.href ≠ [] ∧ jsTrim a.text ≠ []
    · rw [if_pos hc] at heq
      cases heq
      exact hc.2
    · rw [if_neg hc] at heq
      cases heq

/-- Witness for the priority-totality theorem: a concrete non-empty display
text receives an actual numeric priority. -/
theorem getSectionPriority_nan_on_empty_text_witness :
    ("Intro".toList ≠ ([] : Str)) ∧
    ∃ n, getSectionPriority "Intro".toList "/a/intro".toList learnConfig = .num n :=
  ⟨by decide, getSectionPriority_nan_on_empty_text.1 "Intro".toList "/a/intro".toList
    learnConfig (by decide)⟩

theorem digitChar_toNat {d : ℕ} (h : d < 10) : (digitChar d).toNat = 48 + d := by
  interval_cases d <;> decide

theorem digitChar_isDigit {d : ℕ} (h : d < 10) : (digitChar d).isDigit = true := by
  interval_cases d <;> decide

theorem natStrCore_append : ∀ (fuel n : ℕ) (acc : Str),
    natStrCore fuel n acc = natStrCore fuel n [] ++ acc := by
  intro fuel
  induction fuel with
  | zero => intro n acc; simp [natStrCore]
  | succ fuel ih =>
    intro n acc
    by_cases h : n < 10
    · simp [natStrCore, h]
    · simp only [natStrCore, if_neg h]
      rw [ih (n / 10) (digitChar (n % 10) :: acc), ih (n / 10) [digitChar (n % 10)]]
      simp

theorem natStrCore_fuel_irrel : ∀ (fuel fuel' n : ℕ), n < fuel → n < fuel' →
    natStrCore fuel n [] = natStrCore fuel' n [] := by
  intro fuel
  induction fuel with
  | zero => intro fuel' n h; omega
  | succ fuel ih =>
    intro fuel' n h h'
    cases fuel' with
    | zero => omega
    | succ fuel' =>
      by_cases h10 : n < 10
      · simp [natStrCore, h10]
      · simp only [natStrCore, if_neg h10]
        rw [natStrCore_append fuel, natStrCore_append fuel']
        have hd : n / 10 < n := Nat.div_lt_self (by omega) (by omega)
        rw [ih fuel' (n / 10) (by omega) (by omega)]

theorem natStr_snoc (n : ℕ) (h : 10 ≤ n) :
    natStr n = natStr (n / 10) ++ [digitChar (n % 10)] := by
  have h10 : ¬ n < 10 := by omega
  have hd : n / 10 < n := Nat.div_lt_self (by omega) (by omega)
  unfold natStr
  conv_lhs => rw [show n + 1 = n + 1 from rfl]
  rw [show natStrCore (n + 1) n [] = natStrCore n (n / 10) [digitChar (n % 10)] from by
    simp [natStrCore, h10]]
  rw [natStrCore_append]
  rw [natStrCore_fuel_irrel n (n / 10 + 1) (n / 10) (by omega) (by omega)]

theorem digitsValFrom_append (a : ℕ) (s t : Str) :
    digitsValFrom a (s ++ t) = digitsValFrom (digitsValFrom a s) t := by
  simp [digitsValFrom, List.foldl_append]

theorem digitsVal_natStr (n : ℕ) : digitsValFrom 0 (natStr n) = n := by
  induction n using Nat.strong_induction_on with
  | _ n ih =>
    by_cases h : n < 10
    · simp [natStr, natStrCore, h, digitsValFrom, digitChar_toNat h]
    · rw [natStr_snoc n (by omega), digitsValFrom_append]
      have hd : n / 10 < n := Nat.div_lt_self (by omega) (by omega)
      rw [ih (n / 10) hd]
      simp [digitsValFrom, digitChar_toNat (Nat.mod_lt n (by omega))]
      omega

theorem digitsVal_pad2 (n : ℕ) : digitsValFrom 0 (pad2 n) = n := by
  unfold pad2
  by_cases h : (natStr n).length < 2
  · simp only [if_pos h]
    have : digitsValFrom 0 ('0' :: natStr n) = digitsValFrom 0 (natStr n) := by
      simp [digitsValFrom]
    rw [this, digitsVal_natStr]
  · simp only [if_neg h]
    exact digitsVal_natStr n

theorem pad2_injective {a b : ℕ} (h : pad2 a = pad2 b) : a = b := by
  have ha := digitsVal_pad2 a
  rw [h, digitsVal_pad2 b] at ha
  omega

theorem natStrCore_digits : ∀ (fuel n : ℕ) (acc : Str),
    (∀ c ∈ acc, c.isDigit = true) → ∀ c ∈ natStrCore fuel n acc, c.isDigit = true := by
  intro fuel
  induction fuel with
  | zero => intro n acc hacc; simpa [natStrCore] using hacc
  | succ fuel ih =>
    intro n acc hacc c hc
    by_cases h : n < 10
    · simp only [natStrCore, if_pos h] at hc
      rcases List.mem_cons.mp hc with rfl | hm
      · exact digitChar_isDigit h
      · exact hacc c hm
    · simp only [natStrCore, if_neg h] at hc
      refine ih (n / 10) (digitChar (n % 10) :: acc) ?_ c hc
      intro c' hc'
      rcases List.mem_cons.mp hc' with rfl | hm
      · exact digitChar_isDigit (Nat.mod_lt n (by omega))
      · exact hacc c' hm

theorem pad2_digits (n : ℕ) : ∀ c ∈ pad2 n, c.isDigit = true := by
  intro c hc
  unfold pad2 at hc
  by_cases h : (natStr n).length < 2
  · simp only [if_pos h] at hc
    rcases List.mem_cons.mp hc with rfl | hm
    · decide
    · exact natStrCore_digits (n + 1) n [] (by simp) c hm
  · simp only [if_neg h] at hc
    exact natStrCore_digits (n + 1) n [] (by simp) c hc

theorem digits_dash_inj : ∀ (d1 d2 r1 r2 : Str),
    (∀ c ∈ d1, c.isDigit = true) → (∀ c ∈ d2, c.isDigit = true) →
    d1 ++ '-' :: r1 = d2 ++ '-' :: r2 → d1 = d2 ∧ r1 = r2 := by
  intro d1
  induction d1 with
  | nil =>
    intro d2 r1 r2 _ hd2 heq
    cases d2 with
    | nil => simpa using heq
    | cons c cs =>
      simp only [List.nil_append, List.cons_append, List.cons.injEq] at heq
      have : c.isDigit = true := hd2 c (by simp)
      rw [← heq.1] at this
      simp at this
  | cons c cs ih =>
    intro d2 r1 r2 hd1 hd2 heq
    cases d2 with
    | nil =>
      simp only [List.cons_append, List.nil_append, List.cons.injEq] at heq
      have : c.isDigit = true := hd1 c (by simp)
      rw [heq.1] at this
      simp at this
    | cons c' cs' =>
      simp only [List.cons_append, List.cons.injEq] at heq
      have := ih cs' r1 r2 (fun x hx => hd1 x (by simp [hx]))
        (fun x hx => hd2 x (by simp [hx])) heq.2
      exact ⟨by simp [heq.1, this.1], this.2⟩

theorem findIdx?_found {α : Type} (p : α → Bool) (l : List α) (i : ℕ)
    (h : l.findIdx? p = some i) : ∃ a, l[i]? = some a ∧ p a = true := by
  rw [List.findIdx?_eq_some_iff_getElem] at h
  obtain ⟨hlen, hp, _⟩ := h
  exact ⟨l[i], by simp [hlen], hp⟩

/-- C2 (amended): for a fixed catalog, `generateChapterSectionFilename` is
injective on page references with distinct hrefs that resolve through the
catalog (chapter assigned, bucket present, href found among the bucket's
sections).  Together with `filename_not_injective_counterexample`, this
bounds the injectivity guarantee: references differing only in display
text can collide. -/
theorem filename_injective_on_distinct_hrefs
    (config : Config) (cat : Catalog) (la lb : Link) (chA chB : Chapter)
    (bA bB : Bucket) (iA iB : ℕ)
    (hA1 : getChapterInfo la.href config = some chA)
    (hA2 : catGet chA.number cat = some bA)
    (hA3 : bA.sections.findIdx? (fun s => s.href = la.href) = some iA)
    (hB1 : getChapterInfo lb.href config = some chB)
    (hB2 : catGet chB.number cat = some bB)
    (hB3 : bB.sections.findIdx? (fun s => s.href = lb.href) = some iB)
    (hne : la.href ≠ lb.href) :
    generateChapterSectionFilename la cat config ≠
      generateChapterSectionFilename lb cat config := by
  intro heq
  simp only [generateChapterSectionFilename, hA1, hA2, hA3, hB1, hB2, hB3] at heq
  simp only [List.append_assoc, List.cons_append] at heq
  have h1 := digits_dash_inj _ _ _ _ (pad2_digits chA.number) (pad2_digits chB.number) heq
  have hch : chA.number = chB.number := pad2_injective h1.1
  have hbb : bA = bB := by
    rw [hch] at hA2
    rw [hA2] at hB2
    exact Option.some.inj hB2
  have h2 := digits_dash_inj _ _ _ _ (pad2_digits (iA + 1)) (pad2_digits (iB + 1)) h1.2
  have hidx : iA = iB := by
    have := pad2_injective h2.1
    omega
  obtain ⟨sa, hsa, hpa⟩ := findIdx?_found _ _ _ hA3
  obtain ⟨sb, hsb, hpb⟩ := findIdx?_found _ _ _ hB3
  rw [hbb, hidx] at hsa
  rw [hsa] at hsb
  have hss : sa = sb := Option.some.inj hsb
  have hra : sa.href = la.href := of_decide_eq_true hpa
  have hrb : sb.href = lb.href := of_decide_eq_true hpb
  rw [hss, hrb] at hra
  exact hne hra.symm

/-- Witness for the amended injectivity theorem at the concrete scenario
catalog: the references for `/a/intro` and `/a/zeta` receive distinct
filenames. -/
theorem filename_injective_on_distinct_hrefs_witness :
    generateChapterSectionFilename introLink scenarioCatalog scenarioConfig ≠
      generateChapterSectionFilename zetaLink scenarioCatalog scenarioConfig :=
  filename_injective_on_distinct_hrefs scenarioConfig scenarioCatalog introLink zetaLink
    ⟨1, "A".toList⟩ ⟨1, "A".toList⟩
    ⟨⟨1, "A".toList⟩,
     [⟨"/a/intro".toList, [], "Intro".toList, "https://x/a/intro".toList, .num 1⟩,
      ⟨"/a/zeta".toList, [], "Zeta".toList, "https://x/a/zeta".toList, .num 1122⟩]⟩
    ⟨⟨1, "A".toList⟩,
     [⟨"/a/intro".toList, [], "Intro".toList, "https://x/a/intro".toList, .num 1⟩,
      ⟨"/a/zeta".toList, [], "Zeta".toList, "https://x/a/zeta".toList, .num 1122⟩]⟩
    0 1 (by decide) (by decide) (by decide) (by decide) (by decide) (by decide) (by decide)

theorem mem_jsInsert (x z : Section) : ∀ l : List Section,
    z ∈ jsInsert x l ↔ z = x ∨ z ∈ l := by
  intro l
  induction l with
  | nil => simp [jsInsert]
  | cons y ys ih =>
    by_cases h : sectionLt x y = true
    · simp [jsInsert, h]
    · simp only [jsInsert, if_neg h, List.mem_cons, ih]
      tauto

theorem mem_foldl_jsInsert : ∀ (l acc : List Section) (z : Section),
    z ∈ l.foldl (fun a x => jsInsert x a) acc ↔ z ∈ acc ∨ z ∈ l := by
  intro l
  induction l with
  | nil => intro acc z; simp
  | cons x xs ih =>
    intro acc z
    simp only [List.foldl_cons, ih, mem_jsInsert, List.mem_cons]
    tauto

theorem mem_jsSortSections (z : Section) (l : List Section) :
    z ∈ jsSortSections l ↔ z ∈ l := by
  unfold jsSortSections
  rw [mem_foldl_jsInsert]
  simp

theorem catGet_catInsert_self (n : ℕ) (info : Chapter) (s : Section) :
    ∀ cat : Catalog, ∃ b, catGet n (catInsert n info s cat) = some b ∧ s ∈ b.sections := by
  intro cat
  induction cat with
  | nil => exact ⟨⟨info, [s]⟩, by simp [catInsert, catGet]⟩
  | cons mb rest ih =>
    by_cases h : mb.1 = n
    · refine ⟨⟨mb.2.info, mb.2.sections ++ [s]⟩, ?_, by simp⟩
      simp [catInsert, h, catGet]
    · obtain ⟨b, hb, hs⟩ := ih
      refine ⟨b, ?_, hs⟩
      simp only [catInsert]
      rw [if_neg h]
      simpa [catGet, h] using hb

theorem catGet_catInsert_preserve (n m : ℕ) (info : Chapter) (s : Section) :
    ∀ (cat : Catalog) (b : Bucket), catGet n cat = some b →
    ∃ b', catGet n (catInsert m info s cat) = some b' ∧
      ∀ z ∈ b.sections, z ∈ b'.sections := by
  intro cat
  induction cat with
  | nil => intro b hb; simp [catGet] at hb
  | cons kb rest ih =>
    intro b hb
    by_cases hkm : kb.1 = m
    · by_cases hkn : kb.1 = n
      · have hmn : m = n := by rw [← hkm, hkn]
        have hbb : kb.2 = b := by simpa [catGet, hkn] using hb
        refine ⟨⟨kb.2.info, kb.2.sections ++ [s]⟩, ?_, ?_⟩
        · simp [catInsert, catGet, hkm, hmn]
        · intro z hz
          rw [hbb]
          exact List.mem_append_left _ hz
      · have hmn : ¬ m = n := fun hc => hkn (hkm.trans hc)
        have hb' : catGet n rest = some b := by simpa [catGet, hkn] using hb
        refine ⟨b, ?_, fun z hz => hz⟩
        simp [catInsert, catGet, hkm, hmn, hb']
    · by_cases hkn : kb.1 = n
      · have hbb : kb.2 = b := by simpa [catGet, hkn] using hb
        refine ⟨b, ?_, fun z hz => hz⟩
        simp only [catInsert]
        rw [if_neg hkm]
        simp [catGet, hkn, hbb]
      · have hb' : catGet n rest = some b := by simpa [catGet, hkn] using hb
        obtain ⟨b', hb'', hsub⟩ := ih b hb'
        refine ⟨b', ?_, hsub⟩
        simp only [catInsert]
        rw [if_neg hkm]
        simpa [catGet, hkn] using hb''

theorem addLink_preserve (config : Config) (cat : Catalog) (x : Link) (n : ℕ) (b : Bucket)
    (h : catGet n cat = some b) :
    ∃ b', catGet n (addLink config cat x) = some b' ∧ ∀ z ∈ b.sections, z ∈ b'.sections := by
  unfold addLink
  cases hch : getChapterInfo x.href config with
  | none => exact ⟨b, h, fun z hz => hz⟩
  | some ch => exact catGet_catInsert_preserve n ch.number ch (mkSection config x) cat b h

theorem foldl_addLink_placed (config : Config) : ∀ (ls : List Link) (cat : Catalog)
    (l : Link) (ch : Chapter), getChapterInfo l.href config = some ch →
    (l ∈ ls ∨ ∃ b, catGet ch.number cat = some b ∧
       ∃ s ∈ b.sections, s.href = l.href ∧ s.text = l.text) →
    ∃ b, catGet ch.number (ls.foldl (addLink config) cat) = some b ∧
      ∃ s ∈ b.sections, s.href = l.href ∧ s.text = l.text := by
  intro ls
  induction ls with
  | nil =>
    intro cat l ch hch hcase
    rcases hcase with hmem | hplaced
    · simp at hmem
    · simpa using hplaced
  | cons x xs ih =>
    intro cat l ch hch hcase
    rcases hcase with hmem | hplaced
    · rcases List.mem_cons.mp hmem with rfl | hxs
      · refine ih (addLink config cat l) l ch hch (Or.inr ?_)
        unfold addLink
        rw [hch]
        obtain ⟨b, hb, hs⟩ := catGet_catInsert_self ch.number ch (mkSection config l) cat
        exact ⟨b, hb, mkSection config l, hs, rfl, rfl⟩
      · exact ih (addLink config cat x) l ch hch (Or.inl hxs)
    · obtain ⟨b, hb, s, hs, hhref, htext⟩ := hplaced
      obtain ⟨b', hb', hsub⟩ := addLink_preserve config cat x ch.number b hb
      exact ih (addLink config cat x) l ch hch
        (Or.inr ⟨b', hb', s, hsub s hs, hhref, htext⟩)

theorem catGet_map_sort (n : ℕ) : ∀ cat : Catalog,
    catGet n (cat.map (fun nb => (nb.1, Bucket.mk nb.2.info (jsSortSections nb.2.sections)))) =
      (catGet n cat).map (fun b => Bucket.mk b.info (jsSortSections b.sections)) := by
  intro cat
  induction cat with
  | nil => simp [catGet]
  | cons kb rest ih =>
    by_cases h : kb.1 = n
    · simp [catGet, h]
    · simpa [catGet, h] using ih

/-- C4 (amended): a learn-mode href matching no mapping entry, and a
reference-mode href with at least two path segments whose two-segment key
is unmapped, both receive the sentinel chapter `{99, Other}`; 99 is
strictly greater than every chapter number of the shipped mapping tables;
and every reference to which `getChapterInfo` assigns a chapter is placed
in the catalog.  The exception forced by
`unmatched_href_dropped_counterexample` remains: a reference-mode href with
fewer than two path segments yields null and is dropped. -/
theorem unmatched_other_and_placed (config : Config) (links : List Link) :
    (∀ href : Str, config.mode = .learn →
       alistGet href config.chapterMapping = none →
       config.chapterMapping.find? (fun kc => kc.1.isPrefixOf href) = none →
       getChapterInfo href config = some ⟨99, "Other".toList⟩) ∧
    (∀ (href : Str) (p0 p1 : Str) (rest : List Str), config.mode = .reference →
       (List.splitOn '/' href).filter (fun p => !p.isEmpty) = p0 :: p1 :: rest →
       alistGet ('/' :: p0 ++ '/' :: p1) config.chapterMapping = none →
       getChapterInfo href config = some ⟨99, "Other".toList⟩) ∧
    ((referenceConfig.chapterMapping ++ learnConfig.chapterMapping).all
       (fun kc => kc.2.number < 99) = true) ∧
    (∀ l ∈ links, ∀ ch, getChapterInfo l.href config = some ch →
       ∃ b, catGet ch.number (organizeLinks links config) = some b ∧
         ∃ s ∈ b.sections, s.href = l.href ∧ s.text = l.text) := by
  refine ⟨?_, ?_, by decide, ?_⟩
  · intro href hmode hexact hprefix
    simp [getChapterInfo, hmode, hexact, hprefix]
  · intro href p0 p1 rest hmode hparts hget
    simp only [List.cons_append] at hget
    simp [getChapterInfo, hmode, hparts, hget]
  · intro l hl ch hch
    obtain ⟨b, hb, s, hs, hhref, htext⟩ :=
      foldl_addLink_placed config links [] l ch hch (Or.inl hl)
    unfold organizeLinks
    rw [catGet_map_sort, hb]
    exact ⟨⟨b.info, jsSortSections b.sections⟩, rfl, s,
      (mem_jsSortSections s b.sections).mpr hs, hhref, htext⟩

/-- Witness for the amended sentinel-chapter theorem: the learn-mode href
`/zzz` matches no mapping entry and receives chapter `{99, Other}`, and a
concrete classified reference is placed in the catalog. -/
theorem unmatched_other_and_placed_witness :
    getChapterInfo "/zzz".toList learnConfig = some ⟨99, "Other".toList⟩ ∧
    ∃ b, catGet 1 (organizeLinks [introLink] scenarioConfig) = some b ∧
      ∃ s ∈ b.sections, s.href = introLink.href ∧ s.text = introLink.text :=
  ⟨(unmatched_other_and_placed learnConfig []).1 "/zzz".toList rfl (by decide) (by decide),
   (unmatched_other_and_placed scenarioConfig [introLink]).2.2.2 introLink (by decide)
     ⟨1, "A".toList⟩ (by decide)⟩

theorem getSectionPriority_num_of_ne (text href : Str) (config : Config)
    (h : text ≠ []) : ∃ n, getSectionPriority text href config = .num n := by
  unfold getSectionPriority
  cases hf : config.sectionPriority.find? (keywordMatches text href) with
  | some kp => exact ⟨kp.2, by simp⟩
  | none =>
    cases text with
    | nil => exact absurd rfl h
    | cons c cs => exact ⟨1000 + (Char.toLower c).toNat, by simp [jsToLower]⟩

theorem lexCmp_neg_swap : ∀ a b : Str, lexCmp a b = - lexCmp b a := by
  intro a
  induction a with
  | nil => intro b; cases b <;> simp [lexCmp]
  | cons x xs ih =>
    intro b
    cases b with
    | nil => simp [lexCmp]
    | cons y ys =>
      by_cases h1 : x.toNat < y.toNat
      · have h2 : ¬ y.toNat < x.toNat := by omega
        simp [lexCmp, h1, h2]
      · by_cases h2 : y.toNat < x.toNat
        · simp [lexCmp, h1, h2]
        · simp [lexCmp, h1, h2, ih ys]

theorem lexCmp_lt_trans : ∀ a b c : Str,
    lexCmp a b < 0 → lexCmp b c < 0 → lexCmp a c < 0 := by
  intro a
  induction a with
  | nil =>
    intro b c hab hbc
    cases c with
    | nil =>
      cases b with
      | nil => simp [lexCmp] at hab
      | cons y ys => simp [lexCmp] at hbc
    | cons z zs => simp [lexCmp]
  | cons x xs ih =>
    intro b c hab hbc
    cases b with
    | nil => simp [lexCmp] at hab
    | cons y ys =>
      cases c with
      | nil => simp [lexCmp] at hbc
      | cons z zs =>
        by_cases hxy : x.toNat < y.toNat
        · by_cases hyz : y.toNat < z.toNat
          · have hxz : x.toNat < z.toNat := by omega
            simp [lexCmp, hxz]
          · by_cases hzy : z.toNat < y.toNat
            · simp [lexCmp, hyz, hzy] at hbc
            · have hxz : x.toNat < z.toNat := by omega
              simp [lexCmp, hxz]
        · by_cases hyx : y.toNat < x.toNat
          · simp [lexCmp, hxy, hyx] at hab
          · have hab' : lexCmp xs ys < 0 := by
              simpa [lexCmp, hxy, hyx] using hab
            by_cases hyz : y.toNat < z.toNat
            · have hxz : x.toNat < z.toNat := by omega
              simp [lexCmp, hxz]
            · by_cases hzy : z.toNat < y.toNat
              · simp [lexCmp, hyz, hzy] at hbc
              · have hbc' : lexCmp ys zs < 0 := by
                  simpa [lexCmp, hyz, hzy] using hbc
                have hxz1 : ¬ x.toNat < z.toNat := by omega
                have hxz2 : ¬ z.toNat < x.toNat := by omega
                simpa [lexCmp, hxz1, hxz2] using ih ys zs hab' hbc'

theorem sectionLt_iff (a b : Section) : sectionLt a b = true ↔
    ∃ x y, a.priority = .num x ∧ b.priority = .num y ∧
      (x < y ∨ (x = y ∧ lexCmp a.text b.text < 0)) := by
  cases ha : a.priority with
  | nan => simp [sectionLt, sectionComparator, jsNumNeq, ha]
  | num x =>
    cases hb : b.priority with
    | nan => simp [sectionLt, sectionComparator, jsNumNeq, ha, hb]
    | num y =>
      by_cases hxy : x = y
      · subst hxy
        simp [sectionLt, sectionComparator, jsNumNeq, ha, hb]
      · have hc : ((x : Int) - (y : Int) < 0) ↔ x < y := by omega
        simp [sectionLt, sectionComparator, jsNumNeq, ha, hb, hxy, hc]

theorem sectionLt_asymm {a b : Section} (h : sectionLt a b = true) :
    sectionLt b a = false := by
  rcases (sectionLt_iff a b).mp h with ⟨x, y, hx, hy, hord⟩
  cases hba : sectionLt b a with
  | false => rfl
  | true =>
    rcases (sectionLt_iff b a).mp hba with ⟨y', x', hy', hx', hord'⟩
    rw [hy] at hy'
    rw [hx] at hx'
    have hyy : y = y' := by injection hy'
    have hxx : x = x' := by injection hx'
    subst hyy
    subst hxx
    rcases hord with hlt | ⟨heq, hlex⟩
    · rcases hord' with hlt' | ⟨heq', _⟩ <;> omega
    · rcases hord' with hlt' | ⟨_, hlex'⟩
      · omega
      · rw [lexCmp_neg_swap] at hlex'
        omega

theorem sectionLt_trans {a b c : Section} (hab : sectionLt a b = true)
    (hbc : sectionLt b c = true) : sectionLt a c = true := by
  rcases (sectionLt_iff a b).mp hab with ⟨x, y, hx, hy, hord1⟩
  rcases (sectionLt_iff b c).mp hbc with ⟨y', z, hy', hz, hord2⟩
  rw [hy] at hy'
  have hyy : y = y' := by injection hy'
  subst hyy
  refine (sectionLt_iff a c).mpr ⟨x, z, hx, hz, ?_⟩
  rcases hord1 with hlt1 | ⟨heq1, hlex1⟩
  · rcases hord2 with hlt2 | ⟨heq2, _⟩
    · exact Or.inl (by omega)
    · exact Or.inl (by omega)
  · rcases hord2 with hlt2 | ⟨heq2, hlex2⟩
    · exact Or.inl (by omega)
    · exact Or.inr ⟨by omega, by
        subst heq1
        exact lexCmp_lt_trans a.text b.text c.text hlex1 hlex2⟩

theorem pairwise_jsInsert (x : Section) : ∀ l : List Section,
    l.Pairwise (fun a b => sectionLt b a = false) →
    (jsInsert x l).Pairwise (fun a b => sectionLt b a = false) := by
  intro l
  induction l with
  | nil => intro _; simp [jsInsert]
  | cons y ys ih =>
    intro hl
    rw [List.pairwise_cons] at hl
    obtain ⟨hy, hys⟩ := hl
    by_cases h : sectionLt x y = true
    · simp only [jsInsert, if_pos h]
      rw [List.pairwise_cons]
      refine ⟨?_, by rw [List.pairwise_cons]; exact ⟨hy, hys⟩⟩
      intro z hz
      rcases List.mem_cons.mp hz with rfl | hzs
      · exact sectionLt_asymm h
      · cases hzx : sectionLt z x with
        | false => rfl
        | true =>
          have := sectionLt_trans hzx h
          rw [hy z hzs] at this
          exact (Bool.false_ne_true this).elim
    · simp only [jsInsert, if_neg h]
      rw [List.pairwise_cons]
      refine ⟨?_, ih hys⟩
      intro z hz
      rcases (mem_jsInsert x z ys).mp hz with rfl | hzs
      · simpa using h
      · exact hy z hzs

theorem pairwise_jsSortSections (l : List Section) :
    (jsSortSections l).Pairwise (fun a b => sectionLt b a = false) := by
  unfold jsSortSections
  suffices h : ∀ acc : List Section, acc.Pairwise (fun a b => sectionLt b a = false) →
      (l.foldl (fun a x => jsInsert x a) acc).Pairwise (fun a b => sectionLt b a = false) by
    exact h [] (by simp)
  induction l with
  | nil => intro acc hacc; simpa using hacc
  | cons x xs ih => intro acc hacc; exact ih (jsInsert x acc) (pairwise_jsInsert x acc hacc)

theorem catInsert_sections_from : ∀ (cat : Catalog) (n m : ℕ) (info : Chapter)
    (x : Section) (b0 : Bucket), catGet n (catInsert m info x cat) = some b0 →
    ∀ s ∈ b0.sections, s = x ∨ ∃ b1, catGet n cat = some b1 ∧ s ∈ b1.sections := by
  intro cat
  induction cat with
  | nil =>
    intro n m info x b0 hb0 s hs
    by_cases hmn : m = n
    · have hb : b0 = ⟨info, [x]⟩ := by
        have := hb0
        simp [catInsert, catGet, hmn] at this
        exact this.symm
      rw [hb] at hs
      simp at hs
      exact Or.inl hs
    · simp [catInsert, catGet, hmn] at hb0
  | cons kb rest ih =>
    intro n m info x b0 hb0 s hs
    by_cases hkm : kb.1 = m
    · by_cases hkn : kb.1 = n
      · have hmn : m = n := by rw [← hkm, hkn]
        have hb : b0 = ⟨kb.2.info, kb.2.sections ++ [x]⟩ := by
          have := hb0
          simp [catInsert, catGet, hkm, hmn] at this
          exact this.symm
        rw [hb] at hs
        simp at hs
        rcases hs with hold | hsx
        · exact Or.inr ⟨kb.2, by simp [catGet, hkn], hold⟩
        · exact Or.inl hsx
      · have hmn : ¬ m = n := fun hc => hkn (hkm.trans hc)
        have hb0' : catGet n rest = some b0 := by
          simpa [catInsert, catGet, hkm, hmn] using hb0
        exact Or.inr ⟨b0, by simp [catGet, hkn, hb0'], hs⟩
    · by_cases hkn : kb.1 = n
      · have hbk : b0 = kb.2 := by
          have h1 : catGet n (catInsert m info x (kb :: rest)) = some kb.2 := by
            simp only [catInsert]
            rw [if_neg hkm]
            simp [catGet, hkn]
          rw [h1] at hb0
          exact (Option.some.inj hb0).symm
        exact Or.inr ⟨kb.2, by simp [catGet, hkn], hbk ▸ hs⟩
      · have hb0' : catGet n (catInsert m info x rest) = some b0 := by
          have h1 : catGet n (catInsert m info x (kb :: rest)) =
              catGet n (catInsert m info x rest) := by
            simp only [catInsert]
            rw [if_neg hkm]
            simp [catGet, hkn]
          rw [h1] at hb0
          exact hb0
        rcases ih n m info x b0 hb0' s hs with h | ⟨b1, hb1, hsb1⟩
        · exact Or.inl h
        · exact Or.inr ⟨b1, by simpa [catGet, hkn] using hb1, hsb1⟩

theorem foldl_addLink_from (config : Config) : ∀ (ls : List Link) (cat : Catalog) (n : ℕ)
    (b : Bucket), catGet n (ls.foldl (addLink config) cat) = some b → ∀ s ∈ b.sections,
    (∃ l ∈ ls, s = mkSection config l) ∨ ∃ b0, catGet n cat = some b0 ∧ s ∈ b0.sections := by
  intro ls
  induction ls with
  | nil => intro cat n b hb s hs; exact Or.inr ⟨b, hb, hs⟩
  | cons x xs ih =>
    intro cat n b hb s hs
    rcases ih (addLink config cat x) n b hb s hs with ⟨l, hl, heq⟩ | ⟨b0, hb0, hsb0⟩
    · exact Or.inl ⟨l, by simp [hl], heq⟩
    · unfold addLink at hb0
      cases hch : getChapterInfo x.href config with
      | none =>
        rw [hch] at hb0
        exact Or.inr ⟨b0, hb0, hsb0⟩
      | some ch =>
        rw [hch] at hb0
        rcases catInsert_sections_from cat n ch.number ch (mkSection config x) b0 hb0 s hsb0
          with heq | ⟨b1, hb1, hsb1⟩
        · exact Or.inl ⟨x, by simp, heq⟩
        · exact Or.inr ⟨b1, hb1, hsb1⟩

theorem organize_sections_from (config : Config) (links : List Link) (n : ℕ) (b : Bucket)
    (hb : catGet n (organizeLinks links config) = some b) :
    (∀ s ∈ b.sections, ∃ l ∈ links, s = mkSection config l) ∧
    b.sections.Pairwise (fun a c => sectionLt c a = false) := by
  unfold organizeLinks at hb
  rw [catGet_map_sort] at hb
  cases h0 : catGet n (links.foldl (addLink config) []) with
  | none => rw [h0] at hb; simp at hb
  | some b0 =>
    rw [h0] at hb
    have hb' : b = ⟨b0.info, jsSortSections b0.sections⟩ := by
      have hx := hb
      simp only [Option.map] at hx
      exact (Option.some.inj hx).symm
    constructor
    · intro s hs
      rw [hb'] at hs
      have hs0 : s ∈ b0.sections := (mem_jsSortSections s b0.sections).mp hs
      rcases foldl_addLink_from config links [] n b0 h0 s hs0 with h | ⟨b1, hb1, _⟩
      · exact h
      · simp [catGet] at hb1
    · rw [hb']
      exact pairwise_jsSortSections b0.sections

theorem find?_min_of_sorted (p : (Str × ℕ) → Bool) : ∀ kps : List (Str × ℕ),
    kps.Pairwise (fun a b => a.2 ≤ b.2) → ∀ kp, kps.find? p = some kp →
    kp.2 ∈ (kps.filter p).map (fun x => x.2) ∧
      ∀ q ∈ (kps.filter p).map (fun x => x.2), kp.2 ≤ q := by
  intro kps
  induction kps with
  | nil => intro _ kp h; simp at h
  | cons k rest ih =>
    intro hp kp hfind
    rw [List.pairwise_cons] at hp
    by_cases hk : p k = true
    · rw [List.find?_cons_of_pos rest hk] at hfind
      have hkp : kp = k := (Option.some.inj hfind).symm
      subst hkp
      constructor
      · simp [List.filter_cons_of_pos hk]
      · intro q hq
        simp only [List.filter_cons_of_pos hk, List.map_cons, List.mem_cons] at hq
        rcases hq with rfl | hq'
        · exact le_refl _
        · simp only [List.mem_map] at hq'
          obtain ⟨x, hx, rfl⟩ := hq'
          exact hp.1 x (List.mem_filter.mp hx).1
    · rw [List.find?_cons_of_neg rest hk] at hfind
      have := ih hp.2 kp hfind
      simpa [List.filter_cons_of_neg hk] using this

theorem getSectionPriority_min (text href : Str) (config : Config)
    (hsorted : config.sectionPriority.Pairwise (fun a b => a.2 ≤ b.2))
    (hne : matchingPriorities config text href ≠ []) :
    ∃ p, getSectionPriority text href config = .num p ∧
      p ∈ matchingPriorities config text href ∧
      ∀ q ∈ matchingPriorities config text href, p ≤ q := by
  cases hf : config.sectionPriority.find? (keywordMatches text href) with
  | none =>
    exfalso
    apply hne
    unfold matchingPriorities
    rw [List.find?_eq_none] at hf
    have : config.sectionPriority.filter (keywordMatches text href) = [] := by
      rw [List.filter_eq_nil_iff]
      intro a ha
      simpa using hf a ha
    rw [this]
    simp
  | some kp =>
    have hmin := find?_min_of_sorted (keywordMatches text href) config.sectionPriority
      hsorted kp hf
    exact ⟨kp.2, by simp [getSectionPriority, hf], hmin.1, hmin.2⟩

theorem getSectionPriority_unmatched (text href : Str) (config : Config)
    (hm : matchingPriorities config text href = []) (htext : text ≠ []) :
    ∃ p, getSectionPriority text href config = .num p ∧ 1000 ≤ p := by
  have hf : config.sectionPriority.find? (keywordMatches text href) = none := by
    rw [List.find?_eq_none]
    intro x hx hpx
    have hmem : x.2 ∈ matchingPriorities config text href := by
      unfold matchingPriorities
      simp only [List.mem_map]
      exact ⟨x, List.mem_filter.mpr ⟨hx, hpx⟩, rfl⟩
    rw [hm] at hmem
    simp at hmem
  cases text with
  | nil => exact absurd rfl htext
  | cons c cs =>
    exact ⟨1000 + (Char.toLower c).toNat,
      by simp [getSectionPriority, hf, jsToLower], by omega⟩

/-- C9: after `organizeLinks`, within every chapter the sections are
totally ordered — nondecreasing in priority, ties broken by display text
comparison; each section's priority equals `getSectionPriority` of its text
and href, and when keywords match at all (with the priority table listed in
nondecreasing value order, as both shipped tables are) it is the lowest
matching keyword priority; and, with all table values below 1000 (again
true of the shipped tables), every keyword-less section sorts after every
keyword-matching one.  The non-empty-text precondition is the one the Link
Discoverer establishes. -/
theorem sections_sorted_and_priority_min (config : Config) (links : List Link)
    (htexts : ∀ l ∈ links, l.text ≠ [])
    (hsorted : config.sectionPriority.Pairwise (fun a b => a.2 ≤ b.2))
    (hbound : ∀ kp ∈ config.sectionPriority, kp.2 < 1000) :
    ∀ n b, catGet n (organizeLinks links config) = some b →
      b.sections.Pairwise (fun a c => ∃ pa pc, a.priority = .num pa ∧
        c.priority = .num pc ∧ (pa < pc ∨ (pa = pc ∧ lexCmp a.text c.text ≤ 0))) ∧
      (∀ s ∈ b.sections, s.priority = getSectionPriority s.text s.href config ∧
        (matchingPriorities config s.text s.href ≠ [] →
          ∃ p, s.priority = .num p ∧ p ∈ matchingPriorities config s.text s.href ∧
            ∀ q ∈ matchingPriorities config s.text s.href, p ≤ q)) ∧
      b.sections.Pairwise (fun a c => matchingPriorities config c.text c.href ≠ [] →
        matchingPriorities config a.text a.href ≠ []) := by
  intro n b hb
  obtain ⟨hfrom, hpw⟩ := organize_sections_from config links n b hb
  have hfacts : ∀ s ∈ b.sections, s.text ≠ [] ∧
      s.priority = getSectionPriority s.text s.href config := by
    intro s hs
    obtain ⟨l, hl, heq⟩ := hfrom s hs
    subst heq
    exact ⟨htexts l hl, rfl⟩
  refine ⟨?_, ?_, ?_⟩
  · refine hpw.imp_of_mem ?_
    intro a c ha hc hltf
    obtain ⟨hta, hpa'⟩ := hfacts a ha
    obtain ⟨htc, hpc'⟩ := hfacts c hc
    obtain ⟨pa, hpa⟩ := getSectionPriority_num_of_ne a.text a.href config hta
    obtain ⟨pc, hpc⟩ := getSectionPriority_num_of_ne c.text c.href config htc
    rw [← hpa'] at hpa
    rw [← hpc'] at hpc
    refine ⟨pa, pc, hpa, hpc, ?_⟩
    by_cases hlt : pa < pc
    · exact Or.inl hlt
    · right
      have hca : ¬ sectionLt c a = true := by simp [hltf]
      rw [sectionLt_iff] at hca
      push_neg at hca
      have hno := hca pc pa hpc hpa
      push_neg at hno
      obtain ⟨hno1, hno2⟩ := hno
      have hpeq : pa = pc := by omega
      refine ⟨hpeq, ?_⟩
      have hlexge : 0 ≤ lexCmp c.text a.text := hno2 (by omega)
      rw [lexCmp_neg_swap]
      omega
  · intro s hs
    obtain ⟨hts, hps⟩ := hfacts s hs
    refine ⟨hps, ?_⟩
    intro hne
    obtain ⟨p, hp, hmem, hmin⟩ := getSectionPriority_min s.text s.href config hsorted hne
    exact ⟨p, hps ▸ hp, hmem, hmin⟩
  · refine hpw.imp_of_mem ?_
    intro a c ha hc hltf hmc
    by_contra hma
    obtain ⟨hta, hpa'⟩ := hfacts a ha
    obtain ⟨htc, hpc'⟩ := hfacts c hc
    obtain ⟨pa, hpa, hpa1000⟩ := getSectionPriority_unmatched a.text a.href config hma hta
    obtain ⟨pc, hpc, hmemc, _⟩ := getSectionPriority_min c.text c.href config hsorted hmc
    have hpclt : pc < 1000 := by
      unfold matchingPriorities at hmemc
      simp only [List.mem_map] at hmemc
      obtain ⟨kp, hkp, rfl⟩ := hmemc
      exact hbound kp (List.mem_filter.mp hkp).1
    have hca : sectionLt c a = true := by
      rw [sectionLt_iff]
      exact ⟨pc, pa, hpc' ▸ hpc, hpa' ▸ hpa, Or.inl (by omega)⟩
    rw [hltf] at hca
    exact Bool.false_ne_true hca

/-- Witness for the section-ordering theorem at the concrete scenario:
preconditions checked by evaluation, conclusion instantiated through the
theorem. -/
theorem sections_sorted_and_priority_min_witness :
    ((∀ l ∈ [introLink, zetaLink], l.text ≠ []) ∧
     scenarioConfig.sectionPriority.Pairwise (fun a b => a.2 ≤ b.2) ∧
     (∀ kp ∈ scenarioConfig.sectionPriority, kp.2 < 1000)) ∧
    (∀ n b, catGet n (organizeLinks [introLink, zetaLink] scenarioConfig) = some b →
      b.sections.Pairwise (fun a c => ∃ pa pc, a.priority = .num pa ∧
        c.priority = .num pc ∧ (pa < pc ∨ (pa = pc ∧ lexCmp a.text c.text ≤ 0))) ∧
      (∀ s ∈ b.sections, s.priority = getSectionPriority s.text s.href scenarioConfig ∧
        (matchingPriorities scenarioConfig s.text s.href ≠ [] →
          ∃ p, s.priority = .num p ∧ p ∈ matchingPriorities scenarioConfig s.text s.href ∧
            ∀ q ∈ matchingPriorities scenarioConfig s.text s.href, p ≤ q)) ∧
      b.sections.Pairwise (fun a c => matchingPriorities scenarioConfig c.text c.href ≠ [] →
        matchingPriorities scenarioConfig a.text a.href ≠ [])) :=
  ⟨⟨by decide, by decide, by decide⟩,
   sections_sorted_and_priority_min scenarioConfig [introLink, zetaLink]
     (by decide) (by decide) (by decide)⟩

theorem alistGet_alistSet {α : Type} (k p : Str) (v : α) :
    ∀ l : List (Str × α), alistGet p (alistSet k v l) =
      if k = p then some v else alistGet p l := by
  intro l
  induction l with
  | nil => by_cases h : k = p <;> simp [alistSet, alistGet, h]
  | cons kv rest ih =>
    by_cases h1 : kv.1 = k
    · by_cases h2 : k = p
      · simp [alistSet, h1, alistGet, h2]
      · have h3 : ¬ kv.1 = p := by rw [h1]; exact h2
        simp [alistSet, h1, alistGet, h2, h3]
    · by_cases h3 : kv.1 = p
      · have h2 : ¬ k = p := fun hc => h1 (by rw [hc, h3])
        have h2' : ¬ p = k := fun hc => h2 hc.symm
        simp [alistSet, h1, alistGet, h3, h2, h2']
      · simp [alistSet, h1, alistGet, h3, ih]

theorem shouldSkip_true_iff (st : ConvState) (hp mp : Str) (h : FileEntry)
    (hh : alistGet hp st.html = some h) :
    shouldSkipConversion st hp mp = true ↔
      ∃ m, alistGet mp st.md = some m ∧ h.mtime ≤ m.mtime := by
  unfold shouldSkipConversion
  cases hm : alistGet mp st.md with
  | none => simp [hm]
  | some m => simp [hm, hh, Nat.not_lt]

theorem convertCore_html (ctx : ConvCtx) (now : ℕ) (st : ConvState) (link : Link)
    (base hp mp : Str) : ((convertCore ctx now st link base hp mp).2).html = st.html := by
  unfold convertCore
  split
  · rfl
  · split
    · rfl
    · rfl

theorem convertCore_md (ctx : ConvCtx) (now : ℕ) (st : ConvState) (link : Link)
    (base hp mp p : Str) :
    alistGet p ((convertCore ctx now st link base hp mp).2).md = alistGet p st.md ∨
    ∃ c, alistGet p ((convertCore ctx now st link base hp mp).2).md = some ⟨c, now⟩ := by
  unfold convertCore
  split
  · left; rfl
  · split
    · left; rfl
    · rename_i article heq2
      by_cases hmp : mp = p
      · right
        exact ⟨createMarkdownDocument article link article.markdown now,
          by simp [alistGet_alistSet, hmp]⟩
      · left
        simp [alistGet_alistSet, hmp]

theorem convertCore_writes (ctx : ConvCtx) (now : ℕ) (st : ConvState) (link : Link)
    (base hp mp : Str) (h : FileEntry) (a : Extracted)
    (hh : alistGet hp st.html = some h) (hx : ctx.extract h.content = some a) :
    ∃ e : FileEntry,
      alistGet mp ((convertCore ctx now st link base hp mp).2).md = some e ∧
      e.mtime = now := by
  simp only [convertCore, hh, hx]
  exact ⟨⟨createMarkdownDocument a link a.markdown now, now⟩,
    by simp [alistGet_alistSet], rfl⟩

theorem convertCore_not_skipped (ctx : ConvCtx) (now : ℕ) (st : ConvState) (link : Link)
    (base hp mp : Str) (rec : ConvRecord)
    (h : (convertCore ctx now st link base hp mp).1 = some rec) : rec.skipped = false := by
  unfold convertCore at h
  split at h
  · simp at h
  · split at h
    · simp at h
    · simp only [Option.some.injEq] at h
      rw [← h]

theorem convertSingleFile_nolink (ctx : ConvCtx) (now : ℕ) (st : ConvState) (f : Str)
    (hlink : ctx.links.find? (fun l =>
      generateChapterSectionFilename l ctx.org ctx.config =
        replaceFirst ".html".toList [] f) = none) :
    convertSingleFile ctx now st f = (none, st) := by
  simp only [convertSingleFile, hlink]

theorem convertSingleFile_skip (ctx : ConvCtx) (now : ℕ) (st : ConvState) (f : Str)
    (link : Link) (m : FileEntry)
    (hlink : ctx.links.find? (fun l =>
      generateChapterSectionFilename l ctx.org ctx.config =
        replaceFirst ".html".toList [] f) = some link)
    (hskip : shouldSkipConversion st (pathJoin ctx.htmlDir f)
      (pathJoin ctx.mdDir (replaceFirst ".html".toList [] f ++ ".md".toList)) = true)
    (hm : alistGet (pathJoin ctx.mdDir
      (replaceFirst ".html".toList [] f ++ ".md".toList)) st.md = some m) :
    convertSingleFile ctx now st f =
      (some ⟨replaceFirst ".html".toList [] f ++ ".md".toList, link.text, [],
             wordCountOf m.content, link.fullUrl, link.href, true⟩, st) := by
  simp only [convertSingleFile, hlink, hskip, hm, eq_self_iff_true, if_true]

theorem convertSingleFile_skipmiss (ctx : ConvCtx) (now : ℕ) (st : ConvState) (f : Str)
    (link : Link)
    (hlink : ctx.links.find? (fun l =>
      generateChapterSectionFilename l ctx.org ctx.config =
        replaceFirst ".html".toList [] f) = some link)
    (hskip : shouldSkipConversion st (pathJoin ctx.htmlDir f)
      (pathJoin ctx.mdDir (replaceFirst ".html".toList [] f ++ ".md".toList)) = true)
    (hm : alistGet (pathJoin ctx.mdDir
      (replaceFirst ".html".toList [] f ++ ".md".toList)) st.md = none) :
    convertSingleFile ctx now st f =
      convertCore ctx now st link (replaceFirst ".html".toList [] f)
        (pathJoin ctx.htmlDir f)
        (pathJoin ctx.mdDir (replaceFirst ".html".toList [] f ++ ".md".toList)) := by
  simp only [convertSingleFile, hlink, hskip, hm, eq_self_iff_true, if_true]

theorem convertSingleFile_go (ctx : ConvCtx) (now : ℕ) (st : ConvState) (f : Str)
    (link : Link)
    (hlink : ctx.links.find? (fun l =>
      generateChapterSectionFilename l ctx.org ctx.config =
        replaceFirst ".html".toList [] f) = some link)
    (hskip : shouldSkipConversion st (pathJoin ctx.htmlDir f)
      (pathJoin ctx.mdDir (replaceFirst ".html".toList [] f ++ ".md".toList)) = false) :
    convertSingleFile ctx now st f =
      convertCore ctx now st link (replaceFirst ".html".toList [] f)
        (pathJoin ctx.htmlDir f)
        (pathJoin ctx.mdDir (replaceFirst ".html".toList [] f ++ ".md".toList)) := by
  simp only [convertSingleFile, hlink, hskip, Bool.false_eq_true, if_false]

theorem convertCore_nohtml (ctx : ConvCtx) (now : ℕ) (st : ConvState) (link : Link)
    (base hp mp : Str) (hh : alistGet hp st.html = none) :
    convertCore ctx now st link base hp mp = (none, st) := by
  simp only [convertCore, hh]

theorem convertCore_noextract (ctx : ConvCtx) (now : ℕ) (st : ConvState) (link : Link)
    (base hp mp : Str) (h : FileEntry) (hh : alistGet hp st.html = some h)
    (hx : ctx.extract h.content = none) :
    convertCore ctx now st link base hp mp = (none, st) := by
  simp only [convertCore, hh, hx]

theorem convertStep_html (ctx : ConvCtx) (now : ℕ) (st : ConvState) (f : Str) :
    ((convertSingleFile ctx now st f).2).html = st.html := by
  cases hlink : ctx.links.find? (fun l =>
      generateChapterSectionFilename l ctx.org ctx.config =
        replaceFirst ".html".toList [] f) with
  | none => rw [convertSingleFile_nolink ctx now st f hlink]
  | some link =>
    cases hskip : shouldSkipConversion st (pathJoin ctx.htmlDir f)
        (pathJoin ctx.mdDir (replaceFirst ".html".toList [] f ++ ".md".toList)) with
    | true =>
      cases hm : alistGet (pathJoin ctx.mdDir
          (replaceFirst ".html".toList [] f ++ ".md".toList)) st.md with
      | some m => rw [convertSingleFile_skip ctx now st f link m hlink hskip hm]
      | none =>
        rw [convertSingleFile_skipmiss ctx now st f link hlink hskip hm]
        exact convertCore_html ctx now st link _ _ _
    | false =>
      rw [convertSingleFile_go ctx now st f link hlink hskip]
      exact convertCore_html ctx now st link _ _ _

theorem convertStep_md (ctx : ConvCtx) (now : ℕ) (st : ConvState) (f p : Str) :
    alistGet p ((convertSingleFile ctx now st f).2).md = alistGet p st.md ∨
    ∃ c, alistGet p ((convertSingleFile ctx now st f).2).md = some ⟨c, now⟩ := by
  cases hlink : ctx.links.find? (fun l =>
      generateChapterSectionFilename l ctx.org ctx.config =
        replaceFirst ".html".toList [] f) with
  | none => left; rw [convertSingleFile_nolink ctx now st f hlink]
  | some link =>
    cases hskip : shouldSkipConversion st (pathJoin ctx.htmlDir f)
        (pathJoin ctx.mdDir (replaceFirst ".html".toList [] f ++ ".md".toList)) with
    | true =>
      cases hm : alistGet (pathJoin ctx.mdDir
          (replaceFirst ".html".toList [] f ++ ".md".toList)) st.md with
      | some m => left; rw [convertSingleFile_skip ctx now st f link m hlink hskip hm]
      | none =>
        rw [convertSingleFile_skipmiss ctx now st f link hlink hskip hm]
        exact convertCore_md ctx now st link _ _ _ p
    | false =>
      rw [convertSingleFile_go ctx now st f link hlink hskip]
      exact convertCore_md ctx now st link _ _ _ p

theorem convertStep_fresh_self (ctx : ConvCtx) (now : ℕ) (st : ConvState) (f : Str)
    (hmt : ∀ h, alistGet (htmlPathOf ctx f) st.html = some h → h.mtime ≤ now) :
    freshFor ctx ((convertSingleFile ctx now st f).2) f := by
  intro link hlink h hh hext
  rw [convertStep_html] at hh
  by_cases hskip : shouldSkipConversion st (pathJoin ctx.htmlDir f)
      (pathJoin ctx.mdDir (replaceFirst ".html".toList [] f ++ ".md".toList)) = true
  · have hex := (shouldSkip_true_iff st (pathJoin ctx.htmlDir f)
      (pathJoin ctx.mdDir (replaceFirst ".html".toList [] f ++ ".md".toList)) h
      (by simpa [htmlPathOf] using hh)).mp hskip
    obtain ⟨m, hm, hmm⟩ := hex
    have hstate : (convertSingleFile ctx now st f).2 = st := by
      rw [convertSingleFile_skip ctx now st f link m hlink hskip hm]
    rw [hstate]
    exact ⟨m, by simpa [mdPathOf] using hm, hmm⟩
  · obtain ⟨a, hx⟩ := Option.isSome_iff_exists.mp hext
    have hskip' : shouldSkipConversion st (pathJoin ctx.htmlDir f)
        (pathJoin ctx.mdDir (replaceFirst ".html".toList [] f ++ ".md".toList)) = false := by
      simpa using hskip
    have hstep : (convertSingleFile ctx now st f).2 =
        (convertCore ctx now st link (replaceFirst ".html".toList [] f)
          (pathJoin ctx.htmlDir f)
          (pathJoin ctx.mdDir (replaceFirst ".html".toList [] f ++ ".md".toList))).2 := by
      rw [convertSingleFile_go ctx now st f link hlink hskip']
    rw [hstep]
    obtain ⟨e, he, hemt⟩ := convertCore_writes ctx now st link _ _ _ h a
      (by simpa [htmlPathOf] using hh) hx
    exact ⟨e, by simpa [mdPathOf] using he, by rw [hemt]; exact hmt h hh⟩

theorem convertStep_fresh_preserve (ctx : ConvCtx) (now : ℕ) (st : ConvState) (f g : Str)
    (hf : freshFor ctx st f)
    (hmt : ∀ h, alistGet (htmlPathOf ctx f) st.html = some h → h.mtime ≤ now) :
    freshFor ctx ((convertSingleFile ctx now st g).2) f := by
  intro link hlink h hh hext
  rw [convertStep_html] at hh
  obtain ⟨m, hm, hmm⟩ := hf link hlink h hh hext
  rcases convertStep_md ctx now st g (mdPathOf ctx f) with heq | ⟨c, hc⟩
  · exact ⟨m, heq.trans hm, hmm⟩
  · exact ⟨⟨c, now⟩, hc, hmt h hh⟩

theorem convertStep_noop (ctx : ConvCtx) (now : ℕ) (st : ConvState) (f : Str)
    (hf : freshFor ctx st f) : (convertSingleFile ctx now st f).2 = st := by
  cases hlink : ctx.links.find? (fun l =>
      generateChapterSectionFilename l ctx.org ctx.config =
        replaceFirst ".html".toList [] f) with
  | none => rw [convertSingleFile_nolink ctx now st f hlink]
  | some link =>
    cases hhtml : alistGet (pathJoin ctx.htmlDir f) st.html with
    | none =>
      have hskip : shouldSkipConversion st (pathJoin ctx.htmlDir f)
          (pathJoin ctx.mdDir (replaceFirst ".html".toList [] f ++ ".md".toList)) = false := by
        unfold shouldSkipConversion
        rw [hhtml]
        cases alistGet (pathJoin ctx.mdDir (replaceFirst ".html".toList [] f ++ ".md".toList))
          st.md <;> rfl
      rw [convertSingleFile_go ctx now st f link hlink hskip,
        convertCore_nohtml ctx now st link _ _ _ hhtml]
    | some h =>
      by_cases hext : (ctx.extract h.content).isSome = true
      · obtain ⟨m, hm, hmm⟩ := hf link hlink h (by simpa [htmlPathOf] using hhtml) hext
        have hm' : alistGet (pathJoin ctx.mdDir
            (replaceFirst ".html".toList [] f ++ ".md".toList)) st.md = some m := by
          simpa [mdPathOf] using hm
        have hskip : shouldSkipConversion st (pathJoin ctx.htmlDir f)
            (pathJoin ctx.mdDir (replaceFirst ".html".toList [] f ++ ".md".toList)) = true :=
          (shouldSkip_true_iff st _ _ h hhtml).mpr ⟨m, hm', hmm⟩
        rw [convertSingleFile_skip ctx now st f link m hlink hskip hm']
      · have hx : ctx.extract h.content = none := by
          cases hxx : ctx.extract h.content with
          | none => rfl
          | some a => rw [hxx] at hext; simp at hext
        by_cases hskip : shouldSkipConversion st (pathJoin ctx.htmlDir f)
            (pathJoin ctx.mdDir (replaceFirst ".html".toList [] f ++ ".md".toList)) = true
        · cases hm : alistGet (pathJoin ctx.mdDir
              (replaceFirst ".html".toList [] f ++ ".md".toList)) st.md with
          | some m => rw [convertSingleFile_skip ctx now st f link m hlink hskip hm]
          | none =>
            rw [convertSingleFile_skipmiss ctx now st f link hlink hskip hm,
              convertCore_noextract ctx now st link _ _ _ h hhtml hx]
        · have hskip' : shouldSkipConversion st (pathJoin ctx.htmlDir f)
              (pathJoin ctx.mdDir (replaceFirst ".html".toList [] f ++ ".md".toList)) = false := by
            simpa using hskip
          rw [convertSingleFile_go ctx now st f link hlink hskip',
            convertCore_noextract ctx now st link _ _ _ h hhtml hx]

theorem runConvert_cons (ctx : ConvCtx) (now : ℕ) (st : ConvState) (f : Str)
    (fs : List Str) : runConvert ctx now st (f :: fs) =
      runConvert ctx now ((convertSingleFile ctx now st f).2) fs := rfl

theorem runConvert_fresh_preserve (ctx : ConvCtx) (now : ℕ) : ∀ (fs : List Str)
    (st : ConvState) (f : Str), freshFor ctx st f →
    (∀ h, alistGet (htmlPathOf ctx f) st.html = some h → h.mtime ≤ now) →
    freshFor ctx (runConvert ctx now st fs) f := by
  intro fs
  induction fs with
  | nil => intro st f hf _; exact hf
  | cons g gs ih =>
    intro st f hf hmt
    rw [runConvert_cons]
    refine ih _ f (convertStep_fresh_preserve ctx now st f g hf hmt) ?_
    intro h hh
    rw [convertStep_html] at hh
    exact hmt h hh

theorem runConvert_fresh (ctx : ConvCtx) (now : ℕ) : ∀ (fs : List Str) (st : ConvState),
    (∀ g ∈ fs, ∀ h, alistGet (htmlPathOf ctx g) st.html = some h → h.mtime ≤ now) →
    ∀ f ∈ fs, freshFor ctx (runConvert ctx now st fs) f := by
  intro fs
  induction fs with
  | nil => intro st _ f hf; simp at hf
  | cons g gs ih =>
    intro st hmt f hf
    rw [runConvert_cons]
    rcases List.mem_cons.mp hf with rfl | hfs
    · refine runConvert_fresh_preserve ctx now gs _ f
        (convertStep_fresh_self ctx now st f (hmt f hf)) ?_
      intro h hh
      rw [convertStep_html] at hh
      exact hmt f hf h hh
    · refine ih _ ?_ f hfs
      intro g' hg' h hh
      rw [convertStep_html] at hh
      exact hmt g' (by simp [hg']) h hh

theorem runConvert_noop (ctx : ConvCtx) (now : ℕ) : ∀ (fs : List Str) (st : ConvState),
    (∀ f ∈ fs, freshFor ctx st f) → runConvert ctx now st fs = st := by
  intro fs
  induction fs with
  | nil => intro st _; rfl
  | cons f fs ih =>
    intro st hf
    rw [runConvert_cons, convertStep_noop ctx now st f (hf f (by simp))]
    exact ih st (fun g hg => hf g (by simp [hg]))

/-- C6: the convert step skips a raw document — returns a lightweight
record reconstructed from the existing converted file's word count, with no
write — exactly when a converted document with the same base filename
exists whose modification time is not older than the raw document's; and a
second convert run over raw documents unchanged since a first run performed
at or after their modification times leaves the whole converted store,
modification times included, unchanged. -/
theorem convert_skip_iff_and_idempotent (ctx : ConvCtx) :
    (∀ (now : ℕ) (st : ConvState) (f : Str) (link : Link) (h : FileEntry),
       ctx.links.find? (fun l =>
         generateChapterSectionFilename l ctx.org ctx.config =
           replaceFirst ".html".toList [] f) = some link →
       alistGet (htmlPathOf ctx f) st.html = some h →
       ((∃ rec, (convertSingleFile ctx now st f).1 = some rec ∧ rec.skipped = true ∧
           (convertSingleFile ctx now st f).2 = st ∧
           ∃ m, alistGet (mdPathOf ctx f) st.md = some m ∧
             rec.wordCount = wordCountOf m.content) ↔
        (∃ m, alistGet (mdPathOf ctx f) st.md = some m ∧ h.mtime ≤ m.mtime))) ∧
    (∀ (now₁ now₂ : ℕ) (st : ConvState) (fs : List Str),
       (∀ g ∈ fs, ∀ h, alistGet (htmlPathOf ctx g) st.html = some h → h.mtime ≤ now₁) →
       runConvert ctx now₂ (runConvert ctx now₁ st fs) fs = runConvert ctx now₁ st fs) := by
  constructor
  · intro now st f link h hlink hh
    constructor
    · rintro ⟨rec, hrec, hskipflag, _, _⟩
      by_cases hskip : shouldSkipConversion st (pathJoin ctx.htmlDir f)
          (pathJoin ctx.mdDir (replaceFirst ".html".toList [] f ++ ".md".toList)) = true
      · have hex := (shouldSkip_true_iff st (pathJoin ctx.htmlDir f)
          (pathJoin ctx.mdDir (replaceFirst ".html".toList [] f ++ ".md".toList)) h
          (by simpa [htmlPathOf] using hh)).mp hskip
        obtain ⟨m, hm, hmm⟩ := hex
        exact ⟨m, by simpa [mdPathOf] using hm, hmm⟩
      · exfalso
        have hmd : alistGet (pathJoin ctx.mdDir
            (replaceFirst ".html".toList [] f ++ ".md".toList)) st.md =
            alistGet (mdPathOf ctx f) st.md := by simp [mdPathOf]
        have hskip' : shouldSkipConversion st (pathJoin ctx.htmlDir f)
            (pathJoin ctx.mdDir (replaceFirst ".html".toList [] f ++ ".md".toList)) = false := by
          simpa using hskip
        have hstep : (convertSingleFile ctx now st f).1 =
            (convertCore ctx now st link (replaceFirst ".html".toList [] f)
              (pathJoin ctx.htmlDir f)
              (pathJoin ctx.mdDir (replaceFirst ".html".toList [] f ++ ".md".toList))).1 := by
          rw [convertSingleFile_go ctx now st f link hlink hskip']
        rw [hstep] at hrec
        have hns := convertCore_not_skipped ctx now st link _ _ _ rec hrec
        rw [hskipflag] at hns
        exact absurd hns (by decide)
    · intro hex
      obtain ⟨m, hm, hmm⟩ := hex
      have hm' : alistGet (pathJoin ctx.mdDir
          (replaceFirst ".html".toList [] f ++ ".md".toList)) st.md = some m := by
        simpa [mdPathOf] using hm
      have hskip : shouldSkipConversion st (pathJoin ctx.htmlDir f)
          (pathJoin ctx.mdDir (replaceFirst ".html".toList [] f ++ ".md".toList)) = true :=
        (shouldSkip_true_iff st _ _ h (by simpa [htmlPathOf] using hh)).mpr ⟨m, hm', hmm⟩
      have hstep : convertSingleFile ctx now st f =
          (some ⟨replaceFirst ".html".toList [] f ++ ".md".toList, link.text, [],
                 wordCountOf m.content, link.fullUrl, link.href, true⟩, st) :=
        convertSingleFile_skip ctx now st f link m hlink hskip hm'
      exact ⟨_, by rw [hstep], rfl, by rw [hstep], m, hm, rfl⟩
  · intro now₁ now₂ st fs hmt
    exact runConvert_noop ctx now₂ fs (runConvert ctx now₁ st fs)
      (fun f hf => runConvert_fresh ctx now₁ fs st hmt f hf)

/-- Witness for the convert skip/idempotence theorem at the concrete
converter context: one raw document with modification time 5, converted at
time 10, re-run at time 20. -/
theorem convert_skip_iff_and_idempotent_witness :
    ((∃ rec, (convertSingleFile ctxW 10 stW "01-01-intro.html".toList).1 = some rec ∧
        rec.skipped = true ∧
        (convertSingleFile ctxW 10 stW "01-01-intro.html".toList).2 = stW ∧
        ∃ m, alistGet (mdPathOf ctxW "01-01-intro.html".toList) stW.md = some m ∧
          rec.wordCount = wordCountOf m.content) ↔
      (∃ m, alistGet (mdPathOf ctxW "01-01-intro.html".toList) stW.md = some m ∧
        (⟨"x".toList, 5⟩ : FileEntry).mtime ≤ m.mtime)) ∧
    runConvert ctxW 20 (runConvert ctxW 10 stW ["01-01-intro.html".toList])
      ["01-01-intro.html".toList] =
      runConvert ctxW 10 stW ["01-01-intro.html".toList] :=
  ⟨(convert_skip_iff_and_idempotent ctxW).1 10 stW "01-01-intro.html".toList introLink
     ⟨"x".toList, 5⟩ (by decide) (by decide),
   (convert_skip_iff_and_idempotent ctxW).2 10 20 stW ["01-01-intro.html".toList]
     (by
       intro g hg h hh
       simp only [List.mem_singleton] at hg
       subst hg
       have he : alistGet (htmlPathOf ctxW "01-01-intro.html".toList) stW.html =
           some ⟨"x".toList, 5⟩ := by decide
       rw [he] at hh
       cases hh
       decide)⟩

end DocsPipeline
